import Mathlib

/-!
Verification of `query-planner-js/src/generateAllPlans.ts`.

The source implements a branch-and-bound search over the cartesian product of
per-piece candidate lists.  We embed it shallowly:

* `Choices E` is the source's `Choices<T> = (T | undefined)[]`.
* `WorkItem P E` is the source's work-item record (its first field is a
  reserved word in Lean, so it is called `plan` here).
* `stepItem` is one iteration of the `while` loop of
  `generateAllPlansAndFindBest` (lines 80-130); assertion failures and the
  `TypeError` raised when `remaining` is empty are modelled by `none`.
* `searchLoopF` iterates `stepItem` on explicit fuel; `measureStack` is a
  strictly decreasing measure, so the fuel chosen in
  `generateAllPlansWithTrace` is always sufficient (`searchLoopF_congr`).
* The optional `onPlan` observer is reified as a trace of
  `(plan, cost, previousBestCost)` entries appended in call order.

Costs (`number` in the source) are modelled as `Int`.
-/

namespace GenerateAllPlans

/-- Translation of `type Choices<T> = (T | undefined)[]`: a fixed-length
sequence of optional candidate slots. -/
abbrev Choices (E : Type) := List (Option E)

/-- The work-item record pushed on the explicit stack (the source's record with
fields `partial`/`remaining`/`isRoot`/`index`; the first field is a reserved
word in Lean and is called `plan` here). -/
structure WorkItem (P E : Type) where
  plan : P
  remaining : List (Choices E)
  isRoot : Bool
  index : Option Nat
deriving DecidableEq

/-- Result record of `extract` (source lines 159-175). -/
structure ExtractResult (E : Type) where
  extracted : E
  isLast : Bool
  updatedChoices : Choices E
deriving DecidableEq

/-- The scan loop inside `pickNext` (lines 147-151): index of the first
populated slot; `none` models the assertion failure
`Passed a "remaining" with all undefined`. -/
def firstPopulated {E : Type} : Choices E → Option Nat
  | [] => none
  | none :: rest => (firstPopulated rest).map (· + 1)
  | some _ :: _ => some 0

/-- Translation of `pickNext` (lines 145-157).  Here `none` models either
assertion failure. -/
def pickNext {E : Type} (index : Option Nat) (remaining : Choices E) : Option Nat :=
  match index with
  | none => firstPopulated remaining
  | some i =>
    if remaining.length ≤ i then
      firstPopulated remaining
    else
      match remaining[i]? with
      | some (some _) => some i
      | _ => none

/-- The copy loop of `extract` (lines 162-169) builds a choice set of the same
length in which exactly slot `index` is left unset. -/
def clearAt {E : Type} : Choices E → Nat → Choices E
  | [], _ => []
  | _ :: rest, 0 => none :: rest
  | x :: rest, i + 1 => x :: clearAt rest i

/-- The `isLast` accumulation of `extract` (lines 163-168): every slot other
than `index` is empty. -/
def isLastAt {E : Type} : Choices E → Nat → Bool
  | [], _ => true
  | _ :: rest, 0 => rest.all Option.isNone
  | x :: rest, i + 1 => x.isNone && isLastAt rest i

/-- Translation of `extract` (lines 159-175); `none` models the assertion
failure on an empty (or out of range) slot. -/
def extract {E : Type} (index : Nat) (choices : Choices E) : Option (ExtractResult E) :=
  match choices[index]? with
  | some (some e) => some ⟨e, isLastAt choices index, clearAt choices index⟩
  | _ => none

/-- Translation of `insertInStack` (lines 136-143).  The head of the Lean list is the
retrieval end of the source's array (`pop`/`push` act there), so `unshift`
appends at the tail here. -/
def insertInStack {P E : Type} (elt : WorkItem P E) (stack : List (WorkItem P E)) :
    List (WorkItem P E) :=
  match elt.index with
  | some _ => elt :: stack
  | none => stack ++ [elt]

/-- The sibling work item re-inserted at lines 90-95: same plan, same choice
list except that the first set has the picked slot cleared, and the next
preferred index (`index + 1` while the root item is still walking the diagonal,
otherwise cleared). -/
def siblingOf {P E : Type} (it : WorkItem P E) (nextChoices : Choices E)
    (otherChoices : List (Choices E)) (r : ExtractResult E) : WorkItem P E :=
  { plan := it.plan
    remaining := r.updatedChoices :: otherChoices
    isRoot := it.isRoot
    index :=
      match it.index with
      | some i => if it.isRoot ∧ i < nextChoices.length - 1 then some (i + 1) else none
      | none => none }

/-- The continuation work item pushed at lines 124-129. -/
def contOf {P E : Type} (newPlan : P) (otherChoices : List (Choices E))
    (index : Option Nat) : WorkItem P E :=
  { plan := newPlan, remaining := otherChoices, isRoot := false, index := index }

/-- The calls to the `onPlan` observer, in call order:
`(plan, cost, previous best cost)`. -/
abbrev Trace (P : Type) := List (P × Int × Option Int)

/-- One iteration of the `while` loop of `generateAllPlansAndFindBest`
(lines 80-130), acting on the popped item `it`, the rest of the stack, the
best-result state (`min` in the source) and the observer trace.  `none` models
an uncaught error: `remaining[0]` being absent, or an assertion failure in
`pickNext` or `extract`. -/
def stepItem {P E : Type} (addFct : P → E → P) (costFct : P → Int)
    (it : WorkItem P E) (stack : List (WorkItem P E))
    (best : Option (P × Int)) (trace : Trace P) :
    Option (List (WorkItem P E) × Option (P × Int) × Trace P) :=
  match it.remaining with
  | [] => none
  | nextChoices :: otherChoices =>
    match pickNext it.index nextChoices with
    | none => none
    | some pickedIndex =>
      match extract pickedIndex nextChoices with
      | none => none
      | some r =>
        let stack1 :=
          if r.isLast then stack
          else insertInStack (siblingOf it nextChoices otherChoices r) stack
        let newPlan := addFct it.plan r.extracted
        match otherChoices with
        | [] =>
          let cost := costFct newPlan
          some (stack1,
            (match best with
             | none => some (newPlan, cost)
             | some m => if cost < m.2 then some (newPlan, cost) else some m),
            trace ++ [(newPlan, cost, best.map (·.2))])
        | _ :: _ =>
          match best with
          | some m =>
            if costFct newPlan ≥ m.2 then some (stack1, best, trace)
            else some (insertInStack (contOf newPlan otherChoices it.index) stack1, best, trace)
          | none => some (insertInStack (contOf newPlan otherChoices it.index) stack1, best, trace)

/-- Number of populated slots of a choice set. -/
def popCount {E : Type} (c : Choices E) : Nat := (c.filterMap id).length

/-- Total number of populated slots over a work item's remaining choice list. -/
def itemSlots {P E : Type} (it : WorkItem P E) : Nat :=
  (it.remaining.map popCount).sum

/-- Termination measure of the driver loop: one step replaces an item of
measure `3 ^ s` by at most two items of measures `3 ^ (s - 1)` and smaller. -/
def measureStack {P E : Type} (stack : List (WorkItem P E)) : Nat :=
  (stack.map (fun it => 3 ^ itemSlots it)).sum

/-- The driver loop (lines 80-130) on explicit fuel.  `searchLoopF_congr`
shows any fuel above `measureStack` gives the same result, so the fuel is a
proof device, not an approximation. -/
def searchLoopF {P E : Type} (addFct : P → E → P) (costFct : P → Int) :
    Nat → List (WorkItem P E) → Option (P × Int) → Trace P →
    Option (Option (P × Int) × Trace P)
  | 0, _, _, _ => none
  | _ + 1, [], best, trace => some (best, trace)
  | n + 1, it :: rest, best, trace =>
    match stepItem addFct costFct it rest best trace with
    | none => none
    | some (stack', best', trace') => searchLoopF addFct costFct n stack' best' trace'

/-- The single work item pushed before the loop (lines 71-76).  The public
signature takes `toAdd : E[][]`, so every slot starts populated. -/
def initItem {P E : Type} (initial : P) (toAdd : List (List E)) : WorkItem P E :=
  { plan := initial
    remaining := toAdd.map (fun s => s.map some)
    isRoot := true
    index := some 0 }

/-- The state of the driver: stack, best-result (`min` in the source), and the
observer-call trace. -/
abbrev SearchState (P E : Type) :=
  List (WorkItem P E) × Option (P × Int) × Trace P

/-- The state just before the first loop iteration. -/
def initState {P E : Type} (initial : P) (toAdd : List (List E)) : SearchState P E :=
  ([initItem initial toAdd], none, [])

/-- Translation of `generateAllPlansAndFindBest` (lines 55-134) with the `onPlan` observer
reified as the returned trace.  `none` models an uncaught error, including the
final `assert(min, 'A plan should have been found')`. -/
def generateAllPlansWithTrace {P E : Type} (initial : P) (toAdd : List (List E))
    (addFct : P → E → P) (costFct : P → Int) : Option ((P × Int) × Trace P) :=
  match searchLoopF addFct costFct (measureStack [initItem initial toAdd] + 1)
      [initItem initial toAdd] none [] with
  | some (some best, trace) => some (best, trace)
  | _ => none

/-- Translation of `generateAllPlansAndFindBest`, forgetting the observer trace: the returned
`{best, cost}` record, or `none` on an uncaught error. -/
def generateAllPlansAndFindBest {P E : Type} (initial : P) (toAdd : List (List E))
    (addFct : P → E → P) (costFct : P → Int) : Option (P × Int) :=
  (generateAllPlansWithTrace initial toAdd addFct costFct).map (·.1)

/-! ### Specification-side definitions (naive enumeration) -/

/-- The full cartesian product of the candidate lists: all ways to pick one
candidate from each element of `toAdd`, in choice-list order. -/
def allPicks {E : Type} : List (List E) → List (List E)
  | [] => [[]]
  | s :: rest => s.flatMap (fun e => (allPicks rest).map (fun p => e :: p))

/-- The candidates held by the populated slots of a choice set. -/
def choiceElems {E : Type} (c : Choices E) : List E := c.filterMap id

/-- All ways to pick one populated candidate from each choice set. -/
def picksOf {E : Type} : List (Choices E) → List (List E)
  | [] => [[]]
  | c :: rest => (choiceElems c).flatMap (fun e => (picksOf rest).map (fun p => e :: p))

/-- The complete plans reachable from plan `plan` with choice list `ls`:
fold each pick into the plan with `addFct`. -/
def leavesOf {P E : Type} (addFct : P → E → P) (plan : P) (ls : List (Choices E)) : List P :=
  (picksOf ls).map (fun q => q.foldl addFct plan)

/-- The complete plans reachable from a work item. -/
def itemLeaves {P E : Type} (addFct : P → E → P) (it : WorkItem P E) : List P :=
  leavesOf addFct it.plan it.remaining

/-- The complete plans reachable from any item of the stack. -/
def stackLeaves {P E : Type} (addFct : P → E → P) (stack : List (WorkItem P E)) : List P :=
  stack.flatMap (itemLeaves addFct)

/-! ### Well-formedness invariants -/

/-- A choice set as handed in by the caller: non-empty and fully populated. -/
def GoodSet {E : Type} (c : Choices E) : Prop := c ≠ [] ∧ ∀ x ∈ c, x ≠ none

/-- The well-formedness invariant of a work item: a non-empty choice list whose
first set still has a populated slot, whose later sets are untouched caller
sets, and whose preferred index (when present) points at a populated slot — at
the root every slot from the index on is still populated, and below the root
the first set is untouched. -/
def GoodItem {P E : Type} (it : WorkItem P E) : Prop :=
  match it.remaining with
  | [] => False
  | nc :: oc =>
    1 ≤ popCount nc ∧ (∀ d ∈ oc, GoodSet d) ∧
    ∀ i, it.index = some i →
      (it.isRoot = true → ∀ j, i ≤ j → j < nc.length → ∃ e, nc[j]? = some (some e)) ∧
      (it.isRoot = false → ∀ x ∈ nc, x ≠ none)

/-- Every item of the stack is well formed. -/
def GoodStack {P E : Type} (stack : List (WorkItem P E)) : Prop :=
  ∀ it ∈ stack, GoodItem it

/-- One driver iteration as a relation on search states: the popped item is the
stack head, and `stepItem` succeeds. -/
inductive StepRel {P E : Type} (addFct : P → E → P) (costFct : P → Int) :
    SearchState P E → SearchState P E → Prop
  | step {it : WorkItem P E} {rest best trace s'} :
      stepItem addFct costFct it rest best trace = some s' →
      StepRel addFct costFct (it :: rest, best, trace) s'

/-- The complete plans of the naive enumeration: fold each element of the
cartesian product into the initial plan. -/
def allPlansOf {P E : Type} (addFct : P → E → P) (initial : P)
    (toAdd : List (List E)) : List P :=
  (allPicks toAdd).map (fun q => q.foldl addFct initial)

/-- The stack-ordering discipline maintained by `insertInStack`: reading from
the retrieval end, all items carrying a preferred index come before all items
without one. -/
def IndexedFirst {P E : Type} (stack : List (WorkItem P E)) : Prop :=
  ∃ A B, stack = A ++ B ∧ (∀ x ∈ A, x.index ≠ none) ∧ (∀ x ∈ B, x.index = none)

/-! ### The concrete three-piece scenario of the spec -/

/-- Cost contribution of each tagged candidate in the spec's concrete
scenario. -/
def tagCost (s : String) : Int :=
  if s = "a1" then 1
  else if s = "a2" then 5
  else if s = "b1" then 2
  else if s = "b2" then 1
  else 0

/-- The three choice sets of the concrete scenario. -/
def scenarioToAdd : List (List String) := [["a1", "a2"], ["b1", "b2"], ["c1"]]

/-- Additive plan building: a plan is the list of chosen tags. -/
def scenarioAdd (p : List String) (e : String) : List String := p ++ [e]

/-- Additive cost model starting at `0`. -/
def scenarioCost (p : List String) : Int := (p.map tagCost).sum

/-! ### Basic list and slot-count lemmas -/

theorem mem_of_getElem?_eq {α : Type} {l : List α} {i : Nat} {a : α}
    (h : l[i]? = some a) : a ∈ l := by
  induction l generalizing i with
  | nil => simp at h
  | cons x xs ih =>
    cases i with
    | zero => simp at h; simp [h]
    | succ n =>
      simp only [List.getElem?_cons_succ] at h
      exact List.mem_cons_of_mem _ (ih h)

theorem exists_getElem?_eq_of_lt {α : Type} (l : List α) (i : Nat)
    (h : i < l.length) : ∃ a, l[i]? = some a := by
  induction l generalizing i with
  | nil => simp at h
  | cons x xs ih =>
    cases i with
    | zero => exact ⟨x, by simp⟩
    | succ n =>
      simp only [List.length_cons, Nat.succ_lt_succ_iff] at h
      obtain ⟨a, ha⟩ := ih n h
      exact ⟨a, by simpa using ha⟩

theorem exists_getElem?_eq_of_mem {α : Type} {l : List α} {a : α}
    (h : a ∈ l) : ∃ i : Nat, l[i]? = some a := by
  induction l with
  | nil => simp at h
  | cons x xs ih =>
    rcases List.mem_cons.1 h with h | h
    · exact ⟨0, by simp [h]⟩
    · obtain ⟨i, hi⟩ := ih h
      exact ⟨i + 1, by simpa using hi⟩

theorem lt_length_of_getElem?_eq {α : Type} {l : List α} {i : Nat} {a : α}
    (h : l[i]? = some a) : i < l.length := by
  induction l generalizing i with
  | nil => simp at h
  | cons x xs ih =>
    cases i with
    | zero => simp
    | succ n =>
      simp only [List.getElem?_cons_succ] at h
      simpa [Nat.succ_lt_succ_iff] using ih h

theorem popCount_nil {E : Type} : popCount ([] : Choices E) = 0 := rfl

theorem popCount_cons_none {E : Type} (cs : Choices E) :
    popCount (none :: cs) = popCount cs := by
  simp [popCount, List.filterMap_cons]

theorem popCount_cons_some {E : Type} (cs : Choices E) (e : E) :
    popCount (some e :: cs) = popCount cs + 1 := by
  simp [popCount, List.filterMap_cons]

theorem popCount_eq_zero_iff {E : Type} {cs : Choices E} :
    popCount cs = 0 ↔ ∀ x ∈ cs, x = none := by
  induction cs with
  | nil => simp [popCount_nil]
  | cons x rest ih =>
    cases x with
    | none => simpa [popCount_cons_none] using ih
    | some a => simp [popCount_cons_some]

theorem popCount_pos_iff {E : Type} {cs : Choices E} :
    1 ≤ popCount cs ↔ ∃ x, some x ∈ cs := by
  induction cs with
  | nil => simp [popCount_nil]
  | cons x rest ih =>
    cases x with
    | none => simpa [popCount_cons_none] using ih
    | some a => simp [popCount_cons_some]

theorem popCount_pos_of_getElem? {E : Type} {cs : Choices E} {j : Nat} {e : E}
    (h : cs[j]? = some (some e)) : 1 ≤ popCount cs :=
  popCount_pos_iff.mpr ⟨e, mem_of_getElem?_eq h⟩

theorem mem_choiceElems {E : Type} {cs : Choices E} {x : E} :
    x ∈ choiceElems cs ↔ some x ∈ cs := by
  simp only [choiceElems, List.mem_filterMap, id_eq]
  constructor
  · rintro ⟨a, ha, rfl⟩; exact ha
  · intro h; exact ⟨some x, h, rfl⟩

theorem choiceElems_length {E : Type} (cs : Choices E) :
    (choiceElems cs).length = popCount cs := rfl

theorem choiceElems_eq_nil_of_popCount {E : Type} {cs : Choices E}
    (h : popCount cs = 0) : choiceElems cs = [] :=
  List.eq_nil_of_length_eq_zero ((choiceElems_length cs).trans h)

/-! ### `clearAt` lemmas -/

theorem clearAt_length {E : Type} (cs : Choices E) (i : Nat) :
    (clearAt cs i).length = cs.length := by
  induction cs generalizing i with
  | nil => rfl
  | cons x rest ih =>
    cases i with
    | zero => rfl
    | succ n => simp [clearAt, ih]

theorem clearAt_getElem?_ne {E : Type} (cs : Choices E) {i j : Nat} (h : j ≠ i) :
    (clearAt cs i)[j]? = cs[j]? := by
  induction cs generalizing i j with
  | nil => rfl
  | cons x rest ih =>
    cases i with
    | zero =>
      cases j with
      | zero => exact absurd rfl h
      | succ m => simp [clearAt]
    | succ n =>
      cases j with
      | zero => simp [clearAt]
      | succ m =>
        simp only [clearAt, List.getElem?_cons_succ]
        exact ih (fun hc => h (by simp [hc]))

theorem clearAt_getElem?_self {E : Type} (cs : Choices E) {i : Nat} (h : i < cs.length) :
    (clearAt cs i)[i]? = some none := by
  induction cs generalizing i with
  | nil => simp at h
  | cons x rest ih =>
    cases i with
    | zero => simp [clearAt]
    | succ n =>
      simp only [List.length_cons, Nat.succ_lt_succ_iff] at h
      simp only [clearAt, List.getElem?_cons_succ]
      exact ih h

theorem mem_clearAt {E : Type} {cs : Choices E} {i : Nat} {x : E}
    (h : some x ∈ clearAt cs i) : some x ∈ cs := by
  induction cs generalizing i with
  | nil => simp [clearAt] at h
  | cons y rest ih =>
    cases i with
    | zero =>
      rcases List.mem_cons.1 h with h | h
      · exact absurd h.symm (by simp)
      · exact List.mem_cons_of_mem _ h
    | succ n =>
      rcases List.mem_cons.1 (by simpa [clearAt] using h) with h | h
      · simp [h]
      · exact List.mem_cons_of_mem _ (ih h)

theorem popCount_clearAt {E : Type} {cs : Choices E} {i : Nat} {e : E}
    (h : cs[i]? = some (some e)) : popCount (clearAt cs i) + 1 = popCount cs := by
  induction cs generalizing i with
  | nil => simp at h
  | cons x rest ih =>
    cases i with
    | zero =>
      simp only [List.getElem?_cons_zero, Option.some.injEq] at h
      subst h
      simp [clearAt, popCount_cons_none, popCount_cons_some]
    | succ n =>
      simp only [List.getElem?_cons_succ] at h
      cases x with
      | none => simpa [clearAt, popCount_cons_none] using ih h
      | some a => simpa [clearAt, popCount_cons_some] using ih h

/-! ### `isLastAt` lemmas -/

theorem isLastAt_iff_popCount {E : Type} (cs : Choices E) (i : Nat) :
    isLastAt cs i = true ↔ popCount (clearAt cs i) = 0 := by
  induction cs generalizing i with
  | nil => simp [isLastAt, clearAt, popCount_nil]
  | cons x rest ih =>
    cases i with
    | zero =>
      simp only [isLastAt, clearAt, popCount_cons_none, List.all_eq_true]
      rw [popCount_eq_zero_iff]
      simp [Option.isNone_iff_eq_none]
    | succ n =>
      cases x with
      | none =>
        simp only [isLastAt, Option.isNone_none, Bool.true_and, clearAt,
          popCount_cons_none]
        exact ih n
      | some a =>
        simp [isLastAt, clearAt, popCount_cons_some]

theorem popCount_clearAt_pos_of_isLastAt_false {E : Type} {cs : Choices E} {i : Nat}
    (h : isLastAt cs i = false) : 1 ≤ popCount (clearAt cs i) := by
  rcases Nat.eq_zero_or_pos (popCount (clearAt cs i)) with h0 | h1
  · exact absurd ((isLastAt_iff_popCount cs i).mpr h0) (by simp [h])
  · exact h1

theorem isLastAt_true_iff_getElem? {E : Type} (cs : Choices E) (i : Nat) :
    isLastAt cs i = true ↔ ∀ j, j < cs.length → j ≠ i → cs[j]? = some none := by
  rw [isLastAt_iff_popCount, popCount_eq_zero_iff]
  constructor
  · intro h j hj hne
    obtain ⟨y, hy⟩ := exists_getElem?_eq_of_lt (clearAt cs i) j
      (by rw [clearAt_length]; exact hj)
    have hy' : y = none := h y (mem_of_getElem?_eq hy)
    rw [← clearAt_getElem?_ne cs hne, hy, hy']
  · intro h x hx
    obtain ⟨j, hj⟩ := exists_getElem?_eq_of_mem hx
    have hjlen : j < cs.length := by
      have := lt_length_of_getElem?_eq hj
      rwa [clearAt_length] at this
    by_cases hji : j = i
    · subst hji
      rw [clearAt_getElem?_self cs hjlen] at hj
      exact (Option.some.injEq _ _ ▸ hj).symm ▸ rfl
    · rw [clearAt_getElem?_ne cs hji, h j hjlen hji] at hj
      simpa using hj.symm

/-! ### `firstPopulated` lemmas -/

theorem firstPopulated_eq_none_iff {E : Type} {cs : Choices E} :
    firstPopulated cs = none ↔ ∀ x ∈ cs, x = none := by
  induction cs with
  | nil => simp [firstPopulated]
  | cons x rest ih =>
    cases x with
    | none =>
      simp only [firstPopulated, Option.map_eq_none']
      rw [ih]
      simp
    | some a => simp [firstPopulated]

theorem firstPopulated_spec {E : Type} {cs : Choices E} {j : Nat}
    (h : firstPopulated cs = some j) :
    (∃ e, cs[j]? = some (some e)) ∧ ∀ k, k < j → cs[k]? = some none := by
  induction cs generalizing j with
  | nil => simp [firstPopulated] at h
  | cons x rest ih =>
    cases x with
    | none =>
      simp only [firstPopulated, Option.map_eq_some'] at h
      obtain ⟨j', hj', rfl⟩ := h
      obtain ⟨⟨e, he⟩, hk⟩ := ih hj'
      refine ⟨⟨e, by simpa using he⟩, ?_⟩
      intro k hk'
      cases k with
      | zero => simp
      | succ m =>
        simp only [List.getElem?_cons_succ]
        exact hk m (Nat.succ_lt_succ_iff.mp hk')
    | some a =>
      simp only [firstPopulated, Option.some.injEq] at h
      subst h
      exact ⟨⟨a, by simp⟩, fun k hk => absurd hk (Nat.not_lt_zero k)⟩

theorem firstPopulated_isSome_of_popCount {E : Type} {cs : Choices E}
    (h : 1 ≤ popCount cs) : ∃ j, firstPopulated cs = some j := by
  cases hf : firstPopulated cs with
  | none =>
    obtain ⟨x, hx⟩ := popCount_pos_iff.mp h
    exact absurd (firstPopulated_eq_none_iff.mp hf _ hx) (by simp)
  | some j => exact ⟨j, rfl⟩

/-! ### `pickNext` and `extract` lemmas -/

theorem pickNext_none {E : Type} (remaining : Choices E) :
    pickNext none remaining = firstPopulated remaining := rfl

theorem pickNext_of_ge {E : Type} {i : Nat} (remaining : Choices E)
    (h : remaining.length ≤ i) :
    pickNext (some i) remaining = firstPopulated remaining := by
  simp only [pickNext, if_pos h]

theorem pickNext_of_lt_populated {E : Type} {i : Nat} {remaining : Choices E} {e : E}
    (hlt : i < remaining.length) (h : remaining[i]? = some (some e)) :
    pickNext (some i) remaining = some i := by
  simp only [pickNext, if_neg (Nat.not_le.mpr hlt), h]

theorem pickNext_of_lt_empty {E : Type} {i : Nat} {remaining : Choices E}
    (hlt : i < remaining.length) (h : remaining[i]? = some none) :
    pickNext (some i) remaining = none := by
  simp only [pickNext, if_neg (Nat.not_le.mpr hlt), h]

theorem pickNext_in_range_eq {E : Type} {i j : Nat} {remaining : Choices E}
    (hlt : i < remaining.length) (h : pickNext (some i) remaining = some j) :
    j = i := by
  simp only [pickNext, if_neg (Nat.not_le.mpr hlt)] at h
  rcases hri : remaining[i]? with _ | (_ | e) <;> rw [hri] at h
  · exact absurd h (by simp)
  · exact absurd h (by simp)
  · exact (Option.some.inj h).symm

theorem pickNext_populated {E : Type} {index : Option Nat} {remaining : Choices E} {j : Nat}
    (h : pickNext index remaining = some j) :
    ∃ e, remaining[j]? = some (some e) := by
  match index with
  | none => exact (firstPopulated_spec h).1
  | some i =>
    by_cases hle : remaining.length ≤ i
    · rw [pickNext_of_ge _ hle] at h
      exact (firstPopulated_spec h).1
    · simp only [pickNext, if_neg hle] at h
      rcases hri : remaining[i]? with _ | (_ | e) <;> rw [hri] at h
      · exact absurd h (by simp)
      · exact absurd h (by simp)
      · cases Option.some.inj h
        exact ⟨e, hri⟩

theorem pickNext_succeeds {E : Type} {index : Option Nat} {nc : Choices E} {isRoot : Bool}
    (hpop : 1 ≤ popCount nc)
    (hidx : ∀ i, index = some i →
      (isRoot = true → ∀ j, i ≤ j → j < nc.length → ∃ e, nc[j]? = some (some e)) ∧
      (isRoot = false → ∀ x ∈ nc, x ≠ none)) :
    ∃ j, pickNext index nc = some j := by
  match index with
  | none => exact firstPopulated_isSome_of_popCount hpop
  | some i =>
    by_cases hle : nc.length ≤ i
    · obtain ⟨j, hj⟩ := firstPopulated_isSome_of_popCount hpop
      exact ⟨j, by rw [pickNext_of_ge _ hle]; exact hj⟩
    · push_neg at hle
      cases hroot : isRoot with
      | true =>
        obtain ⟨e, he⟩ := ((hidx i rfl).1 (by rw [hroot])) i (le_refl i) hle
        exact ⟨i, pickNext_of_lt_populated hle he⟩
      | false =>
        obtain ⟨y, hy⟩ := exists_getElem?_eq_of_lt nc i hle
        have hne := (hidx i rfl).2 (by rw [hroot]) y (mem_of_getElem?_eq hy)
        match y, hne with
        | some e, _ => exact ⟨i, pickNext_of_lt_populated hle hy⟩

theorem extract_eq {E : Type} {i : Nat} {cs : Choices E} {e : E}
    (h : cs[i]? = some (some e)) :
    extract i cs = some ⟨e, isLastAt cs i, clearAt cs i⟩ := by
  unfold extract
  rw [h]

theorem extract_eq_none {E : Type} {i : Nat} {cs : Choices E}
    (h : ∀ e : E, cs[i]? ≠ some (some e)) : extract i cs = none := by
  unfold extract
  rcases hri : cs[i]? with _ | (_ | e)
  · rfl
  · rfl
  · exact absurd hri (h e)

theorem extract_components {E : Type} {i : Nat} {cs : Choices E} {r : ExtractResult E}
    (h : extract i cs = some r) :
    cs[i]? = some (some r.extracted) ∧ r.isLast = isLastAt cs i ∧
      r.updatedChoices = clearAt cs i := by
  unfold extract at h
  rcases hri : cs[i]? with _ | (_ | e) <;> rw [hri] at h
  · exact absurd h (by simp)
  · exact absurd h (by simp)
  · cases Option.some.inj h
    exact ⟨rfl, rfl, rfl⟩

/-! ### `picksOf`, `leavesOf` and `stackLeaves` lemmas -/

theorem choiceElems_map_some {E : Type} (s : List E) : choiceElems (s.map some) = s := by
  induction s with
  | nil => rfl
  | cons e rest ih =>
    show e :: choiceElems (rest.map some) = e :: rest
    rw [ih]

theorem mem_picksOf_cons {E : Type} {cs : Choices E} {rest : List (Choices E)} {q : List E} :
    q ∈ picksOf (cs :: rest) ↔ ∃ e p, some e ∈ cs ∧ p ∈ picksOf rest ∧ q = e :: p := by
  simp only [picksOf, List.mem_flatMap, List.mem_map, mem_choiceElems]
  constructor
  · rintro ⟨e, he, p, hp, rfl⟩
    exact ⟨e, p, he, hp, rfl⟩
  · rintro ⟨e, p, he, hp, rfl⟩
    exact ⟨e, he, p, hp, rfl⟩

theorem picksOf_map_some {E : Type} (toAdd : List (List E)) :
    picksOf (toAdd.map (fun s => s.map some)) = allPicks toAdd := by
  induction toAdd with
  | nil => rfl
  | cons s rest ih =>
    show (choiceElems (s.map some)).flatMap _ = _
    rw [choiceElems_map_some, ih]
    rfl

theorem picksOf_ne_nil {E : Type} {ls : List (Choices E)}
    (h : ∀ cs ∈ ls, 1 ≤ popCount cs) : picksOf ls ≠ [] := by
  induction ls with
  | nil => simp [picksOf]
  | cons cs rest ih =>
    obtain ⟨e, he⟩ := popCount_pos_iff.mp (h cs (List.mem_cons_self _ _))
    have hrest : picksOf rest ≠ [] := ih (fun d hd => h d (List.mem_cons_of_mem _ hd))
    obtain ⟨p, hp⟩ := List.exists_mem_of_ne_nil _ hrest
    exact List.ne_nil_of_mem (mem_picksOf_cons.mpr ⟨e, p, he, hp, rfl⟩)

theorem mem_leavesOf {P E : Type} {addFct : P → E → P} {plan : P}
    {ls : List (Choices E)} {pl : P} :
    pl ∈ leavesOf addFct plan ls ↔ ∃ q ∈ picksOf ls, q.foldl addFct plan = pl := by
  simp [leavesOf, List.mem_map]

theorem leavesOf_nil {P E : Type} (addFct : P → E → P) (plan : P) :
    leavesOf addFct plan ([] : List (Choices E)) = [plan] := rfl

theorem leavesOf_zero_head {P E : Type} (addFct : P → E → P) (plan : P)
    {nc : Choices E} (h : popCount nc = 0) (oc : List (Choices E)) :
    leavesOf addFct plan (nc :: oc) = [] := by
  simp [leavesOf, picksOf, choiceElems_eq_nil_of_popCount h]

theorem leavesOf_cons_split {P E : Type} {addFct : P → E → P} {plan : P}
    {nc : Choices E} {oc : List (Choices E)} {i : Nat} {e : E}
    (he : nc[i]? = some (some e)) {pl : P}
    (h : pl ∈ leavesOf addFct plan (nc :: oc)) :
    pl ∈ leavesOf addFct plan (clearAt nc i :: oc) ∨
      pl ∈ leavesOf addFct (addFct plan e) oc := by
  rw [mem_leavesOf] at h
  obtain ⟨q, hq, rfl⟩ := h
  obtain ⟨x, p, hx, hp, rfl⟩ := mem_picksOf_cons.mp hq
  obtain ⟨j, hj⟩ := exists_getElem?_eq_of_mem hx
  by_cases hji : j = i
  · subst hji
    rw [hj] at he
    cases Option.some.inj (Option.some.inj he)
    right
    rw [mem_leavesOf]
    exact ⟨p, hp, rfl⟩
  · left
    rw [mem_leavesOf]
    refine ⟨x :: p, mem_picksOf_cons.mpr ⟨x, p, ?_, hp, rfl⟩, rfl⟩
    exact mem_of_getElem?_eq (by rw [clearAt_getElem?_ne nc hji]; exact hj)

theorem leavesOf_clearAt_subset {P E : Type} {addFct : P → E → P} {plan : P}
    {nc : Choices E} {oc : List (Choices E)} {i : Nat} {pl : P}
    (h : pl ∈ leavesOf addFct plan (clearAt nc i :: oc)) :
    pl ∈ leavesOf addFct plan (nc :: oc) := by
  rw [mem_leavesOf] at h ⊢
  obtain ⟨q, hq, rfl⟩ := h
  obtain ⟨x, p, hx, hp, rfl⟩ := mem_picksOf_cons.mp hq
  exact ⟨x :: p, mem_picksOf_cons.mpr ⟨x, p, mem_clearAt hx, hp, rfl⟩, rfl⟩

theorem leavesOf_cont_subset {P E : Type} {addFct : P → E → P} {plan : P}
    {nc : Choices E} {oc : List (Choices E)} {i : Nat} {e : E}
    (he : nc[i]? = some (some e)) {pl : P}
    (h : pl ∈ leavesOf addFct (addFct plan e) oc) :
    pl ∈ leavesOf addFct plan (nc :: oc) := by
  rw [mem_leavesOf] at h ⊢
  obtain ⟨q, hq, rfl⟩ := h
  exact ⟨e :: q, mem_picksOf_cons.mpr ⟨e, q, mem_of_getElem?_eq he, hq, rfl⟩, rfl⟩

theorem mem_stackLeaves {P E : Type} {addFct : P → E → P}
    {stack : List (WorkItem P E)} {pl : P} :
    pl ∈ stackLeaves addFct stack ↔ ∃ it ∈ stack, pl ∈ itemLeaves addFct it := by
  simp [stackLeaves, List.mem_flatMap]

theorem mem_insertInStack {P E : Type} {elt it : WorkItem P E}
    {stack : List (WorkItem P E)} :
    it ∈ insertInStack elt stack ↔ it = elt ∨ it ∈ stack := by
  unfold insertInStack
  cases h : elt.index with
  | none => simp [List.mem_append, or_comm]
  | some i => simp [List.mem_cons]

theorem stackLeaves_insertInStack {P E : Type} {addFct : P → E → P}
    {elt : WorkItem P E} {stack : List (WorkItem P E)} {pl : P} :
    pl ∈ stackLeaves addFct (insertInStack elt stack) ↔
      pl ∈ itemLeaves addFct elt ∨ pl ∈ stackLeaves addFct stack := by
  rw [mem_stackLeaves]
  constructor
  · rintro ⟨it, hit, hpl⟩
    rcases mem_insertInStack.mp hit with rfl | hmem
    · exact Or.inl hpl
    · exact Or.inr (mem_stackLeaves.mpr ⟨it, hmem, hpl⟩)
  · rintro (h | h)
    · exact ⟨elt, mem_insertInStack.mpr (Or.inl rfl), h⟩
    · obtain ⟨it, hit, hpl⟩ := mem_stackLeaves.mp h
      exact ⟨it, mem_insertInStack.mpr (Or.inr hit), hpl⟩

theorem stackLeaves_cons {P E : Type} {addFct : P → E → P} {it : WorkItem P E}
    {stack : List (WorkItem P E)} {pl : P} :
    pl ∈ stackLeaves addFct (it :: stack) ↔
      pl ∈ itemLeaves addFct it ∨ pl ∈ stackLeaves addFct stack := by
  simp [stackLeaves, List.flatMap_cons]

theorem costFct_foldl_le {P E : Type} {addFct : P → E → P} {costFct : P → Int}
    (hmono : ∀ p e, costFct p ≤ costFct (addFct p e)) (q : List E) (p : P) :
    costFct p ≤ costFct (q.foldl addFct p) := by
  induction q generalizing p with
  | nil => simp
  | cons e rest ih => exact le_trans (hmono p e) (ih (addFct p e))

/-! ### Measure lemmas -/

theorem measureStack_nil {P E : Type} : measureStack ([] : List (WorkItem P E)) = 0 := rfl

theorem measureStack_cons {P E : Type} (it : WorkItem P E) (stack : List (WorkItem P E)) :
    measureStack (it :: stack) = 3 ^ itemSlots it + measureStack stack := by
  simp [measureStack]

theorem measureStack_insertInStack {P E : Type} (elt : WorkItem P E)
    (stack : List (WorkItem P E)) :
    measureStack (insertInStack elt stack) = 3 ^ itemSlots elt + measureStack stack := by
  unfold insertInStack
  cases h : elt.index with
  | none => simp [measureStack, Nat.add_comm]
  | some i => simp [measureStack]

theorem insertInStack_ne_nil {P E : Type} (elt : WorkItem P E)
    (stack : List (WorkItem P E)) : insertInStack elt stack ≠ [] := by
  unfold insertInStack
  cases h : elt.index with
  | none => simp
  | some i => simp

/-! ### `stepItem`: success, inversion, measure decrease -/

theorem goodItem_iff {P E : Type} (it : WorkItem P E) (nc : Choices E)
    (oc : List (Choices E)) (hrem : it.remaining = nc :: oc) :
    GoodItem it ↔ (1 ≤ popCount nc ∧ (∀ d ∈ oc, GoodSet d) ∧
      ∀ i, it.index = some i →
        (it.isRoot = true → ∀ j, i ≤ j → j < nc.length → ∃ e, nc[j]? = some (some e)) ∧
        (it.isRoot = false → ∀ x ∈ nc, x ≠ none)) := by
  unfold GoodItem
  rw [hrem]

theorem goodItem_remaining_ne_nil {P E : Type} {it : WorkItem P E}
    (h : GoodItem it) : it.remaining ≠ [] := by
  intro hrem
  unfold GoodItem at h
  rw [hrem] at h
  exact h

theorem goodSet_popCount {E : Type} {d : Choices E} (h : GoodSet d) :
    1 ≤ popCount d := by
  obtain ⟨x, hx⟩ := List.exists_mem_of_ne_nil _ h.1
  have hne := h.2 x hx
  match x, hne with
  | some e, _ => exact popCount_pos_iff.mpr ⟨e, hx⟩

theorem itemSlots_eq {P E : Type} {it : WorkItem P E} {nc : Choices E}
    {oc : List (Choices E)} (hrem : it.remaining = nc :: oc) :
    itemSlots it = popCount nc + (oc.map popCount).sum := by
  unfold itemSlots
  rw [hrem]
  simp

theorem stepItem_succeeds {P E : Type} (addFct : P → E → P) (costFct : P → Int)
    {it : WorkItem P E} (stack : List (WorkItem P E)) (best : Option (P × Int))
    (trace : Trace P) (hgood : GoodItem it) :
    ∃ s', stepItem addFct costFct it stack best trace = some s' := by
  rcases hrem : it.remaining with _ | ⟨nc, oc⟩
  · exact absurd hrem (goodItem_remaining_ne_nil hgood)
  · obtain ⟨hpop, hoc, hidx⟩ := (goodItem_iff it nc oc hrem).mp hgood
    obtain ⟨j, hj⟩ := pickNext_succeeds hpop hidx
    obtain ⟨e, he⟩ := pickNext_populated hj
    unfold stepItem
    rw [hrem]
    dsimp only []
    rw [hj]
    dsimp only []
    rw [extract_eq he]
    dsimp only []
    cases oc with
    | nil => exact ⟨_, rfl⟩
    | cons d oc' =>
      cases best with
      | none => exact ⟨_, rfl⟩
      | some m =>
        dsimp only []
        by_cases hc : costFct (addFct it.plan e) ≥ m.2
        · exact ⟨_, by rw [if_pos hc]⟩
        · exact ⟨_, by rw [if_neg hc]⟩

theorem stepItem_inversion {P E : Type} {addFct : P → E → P} {costFct : P → Int}
    {it : WorkItem P E} {stack : List (WorkItem P E)} {best : Option (P × Int)}
    {trace : Trace P} {s' : List (WorkItem P E) × Option (P × Int) × Trace P}
    (h : stepItem addFct costFct it stack best trace = some s') :
    ∃ nc oc pickedIndex r,
      it.remaining = nc :: oc ∧
      pickNext it.index nc = some pickedIndex ∧
      extract pickedIndex nc = some r ∧
      ((oc = [] ∧
          s'.1 = (if r.isLast then stack else insertInStack (siblingOf it nc oc r) stack) ∧
          s'.2.2 = trace ++ [(addFct it.plan r.extracted,
            costFct (addFct it.plan r.extracted), best.map (·.2))] ∧
          ((best = none ∧ s'.2.1 = some (addFct it.plan r.extracted,
              costFct (addFct it.plan r.extracted))) ∨
            (∃ m, best = some m ∧ costFct (addFct it.plan r.extracted) < m.2 ∧
              s'.2.1 = some (addFct it.plan r.extracted,
                costFct (addFct it.plan r.extracted))) ∨
            (∃ m, best = some m ∧ ¬ costFct (addFct it.plan r.extracted) < m.2 ∧
              s'.2.1 = some m))) ∨
        (oc ≠ [] ∧ s'.2.1 = best ∧ s'.2.2 = trace ∧
          ((∃ m, best = some m ∧ m.2 ≤ costFct (addFct it.plan r.extracted) ∧
              s'.1 = (if r.isLast then stack
                else insertInStack (siblingOf it nc oc r) stack)) ∨
            ((best = none ∨ ∃ m, best = some m ∧
                costFct (addFct it.plan r.extracted) < m.2) ∧
              s'.1 = insertInStack (contOf (addFct it.plan r.extracted) oc it.index)
                (if r.isLast then stack
                  else insertInStack (siblingOf it nc oc r) stack))))) := by
  unfold stepItem at h
  rcases hrem : it.remaining with _ | ⟨nc, oc⟩ <;> rw [hrem] at h
  · exact absurd h (by simp)
  · dsimp only [] at h
    cases hpick : pickNext it.index nc with
    | none =>
      rw [hpick] at h
      dsimp only [] at h
      exact absurd h (by simp)
    | some pickedIndex =>
      rw [hpick] at h
      dsimp only [] at h
      cases hext : extract pickedIndex nc with
      | none =>
        rw [hext] at h
        dsimp only [] at h
        exact absurd h (by simp)
      | some r =>
        rw [hext] at h
        dsimp only [] at h
        refine ⟨nc, oc, pickedIndex, r, rfl, hpick, hext, ?_⟩
        cases oc with
        | nil =>
          cases best with
          | none =>
            dsimp only [] at h
            cases Option.some.inj h
            exact Or.inl ⟨rfl, rfl, rfl, Or.inl ⟨rfl, rfl⟩⟩
          | some m =>
            dsimp only [] at h
            by_cases hlt : costFct (addFct it.plan r.extracted) < m.2
            · rw [if_pos hlt] at h
              cases Option.some.inj h
              exact Or.inl ⟨rfl, rfl, rfl, Or.inr (Or.inl ⟨m, rfl, hlt, rfl⟩)⟩
            · rw [if_neg hlt] at h
              cases Option.some.inj h
              exact Or.inl ⟨rfl, rfl, rfl, Or.inr (Or.inr ⟨m, rfl, hlt, rfl⟩)⟩
        | cons d oc' =>
          cases best with
          | none =>
            dsimp only [] at h
            cases Option.some.inj h
            exact Or.inr ⟨by simp, rfl, rfl, Or.inr ⟨Or.inl rfl, rfl⟩⟩
          | some m =>
            dsimp only [] at h
            by_cases hge : costFct (addFct it.plan r.extracted) ≥ m.2
            · rw [if_pos hge] at h
              cases Option.some.inj h
              exact Or.inr ⟨by simp, rfl, rfl, Or.inl ⟨m, rfl, hge, rfl⟩⟩
            · rw [if_neg hge] at h
              cases Option.some.inj h
              exact Or.inr ⟨by simp, rfl, rfl,
                Or.inr ⟨Or.inr ⟨m, rfl, not_le.mp hge⟩, rfl⟩⟩

theorem stepItem_measure {P E : Type} {addFct : P → E → P} {costFct : P → Int}
    {it : WorkItem P E} {stack : List (WorkItem P E)} {best : Option (P × Int)}
    {trace : Trace P} {s' : List (WorkItem P E) × Option (P × Int) × Trace P}
    (h : stepItem addFct costFct it stack best trace = some s') :
    measureStack s'.1 < measureStack (it :: stack) := by
  obtain ⟨nc, oc, pickedIndex, r, hrem, hpick, hext, hcase⟩ := stepItem_inversion h
  obtain ⟨hri, hlast, hupd⟩ := extract_components hext
  have hpopnc : 1 ≤ popCount nc := popCount_pos_of_getElem? hri
  have hclear := popCount_clearAt hri
  have hslots := itemSlots_eq hrem
  have hsib : itemSlots (siblingOf it nc oc r) + 1 = itemSlots it := by
    have hs : itemSlots (siblingOf it nc oc r)
        = popCount (clearAt nc pickedIndex) + (oc.map popCount).sum := by
      unfold itemSlots siblingOf
      simp [hupd]
    omega
  have hM : measureStack (it :: stack) = 3 ^ itemSlots it + measureStack stack :=
    measureStack_cons it stack
  have hkey : 3 ^ ((oc.map popCount).sum)
      + measureStack (if r.isLast then stack
          else insertInStack (siblingOf it nc oc r) stack)
      < measureStack (it :: stack) := by
    have hs1 : 1 ≤ itemSlots it := by omega
    have hS_le : (oc.map popCount).sum ≤ itemSlots it - 1 := by omega
    have h3 : 3 ^ itemSlots it = 3 ^ (itemSlots it - 1) * 3 := by
      conv_lhs => rw [show itemSlots it = (itemSlots it - 1) + 1 by omega]
      rw [pow_succ]
    have hle : 3 ^ ((oc.map popCount).sum) ≤ 3 ^ (itemSlots it - 1) :=
      Nat.pow_le_pow_right (by norm_num) hS_le
    have hpos : 1 ≤ 3 ^ (itemSlots it - 1) := Nat.one_le_pow _ _ (by norm_num)
    by_cases hl : r.isLast
    · rw [if_pos hl, hM]
      omega
    · rw [if_neg hl, measureStack_insertInStack, hM]
      have hsl : itemSlots (siblingOf it nc oc r) = itemSlots it - 1 := by omega
      rw [hsl]
      omega
  have hone : 1 ≤ 3 ^ ((oc.map popCount).sum) := Nat.one_le_pow _ _ (by norm_num)
  rcases hcase with ⟨_, hstack', _, _⟩ | ⟨_, _, _, hcase2⟩
  · rw [hstack']
    omega
  · rcases hcase2 with ⟨m, _, _, hstack'⟩ | ⟨_, hstack'⟩
    · rw [hstack']
      omega
    · rw [hstack', measureStack_insertInStack]
      have hcont : itemSlots (contOf (addFct it.plan r.extracted) oc it.index)
          = (oc.map popCount).sum := rfl
      rw [hcont]
      exact hkey

theorem searchLoopF_congr {P E : Type} (addFct : P → E → P) (costFct : P → Int) :
    ∀ (n₁ n₂ : Nat) (stack : List (WorkItem P E)) (best : Option (P × Int))
      (trace : Trace P), measureStack stack < n₁ → measureStack stack < n₂ →
      searchLoopF addFct costFct n₁ stack best trace
        = searchLoopF addFct costFct n₂ stack best trace := by
  intro n₁
  induction n₁ with
  | zero =>
    intro n₂ stack best trace h1 h2
    exact absurd h1 (Nat.not_lt_zero _)
  | succ n ih =>
    intro n₂ stack best trace h1 h2
    cases n₂ with
    | zero => exact absurd h2 (Nat.not_lt_zero _)
    | succ m =>
      cases stack with
      | nil => rfl
      | cons it rest =>
        cases hstep : stepItem addFct costFct it rest best trace with
        | none => simp [searchLoopF, hstep]
        | some s' =>
          obtain ⟨st', b', t'⟩ := s'
          have hm := stepItem_measure hstep
          dsimp only [] at hm
          have hm1 : measureStack st' < n := by omega
          have hm2 : measureStack st' < m := by omega
          simp only [searchLoopF, hstep]
          exact ih m st' b' t' hm1 hm2

theorem stepItem_trace_extends {P E : Type} {addFct : P → E → P} {costFct : P → Int}
    {it : WorkItem P E} {stack : List (WorkItem P E)} {best : Option (P × Int)}
    {trace : Trace P} {s' : List (WorkItem P E) × Option (P × Int) × Trace P}
    (h : stepItem addFct costFct it stack best trace = some s') :
    ∃ suffix, s'.2.2 = trace ++ suffix := by
  obtain ⟨nc, oc, pickedIndex, r, hrem, hpick, hext, hcase⟩ := stepItem_inversion h
  rcases hcase with ⟨_, _, htr, _⟩ | ⟨_, _, htr, _⟩
  · exact ⟨_, htr⟩
  · exact ⟨[], by rw [htr, List.append_nil]⟩

theorem searchLoopF_trace_extends {P E : Type} (addFct : P → E → P) (costFct : P → Int) :
    ∀ (n : Nat) (stack : List (WorkItem P E)) (best : Option (P × Int)) (trace : Trace P)
      (res : Option (P × Int) × Trace P),
      searchLoopF addFct costFct n stack best trace = some res →
      ∃ suffix, res.2 = trace ++ suffix := by
  intro n
  induction n with
  | zero =>
    intro stack best trace res h
    simp [searchLoopF] at h
  | succ n ih =>
    intro stack best trace res h
    cases stack with
    | nil =>
      simp only [searchLoopF] at h
      cases Option.some.inj h
      exact ⟨[], by simp⟩
    | cons it rest =>
      cases hstep : stepItem addFct costFct it rest best trace with
      | none => simp [searchLoopF, hstep] at h
      | some s' =>
        obtain ⟨st', b', t'⟩ := s'
        simp only [searchLoopF, hstep] at h
        obtain ⟨sfx1, hsfx1⟩ := stepItem_trace_extends hstep
        dsimp only [] at hsfx1
        obtain ⟨sfx2, hsfx2⟩ := ih st' b' t' res h
        exact ⟨sfx1 ++ sfx2, by rw [hsfx2, hsfx1, List.append_assoc]⟩

/-! ### Preservation of well-formedness -/

theorem stepItem_good {P E : Type} {addFct : P → E → P} {costFct : P → Int}
    {it : WorkItem P E} {stack : List (WorkItem P E)} {best : Option (P × Int)}
    {trace : Trace P} {s' : List (WorkItem P E) × Option (P × Int) × Trace P}
    (h : stepItem addFct costFct it stack best trace = some s')
    (hit : GoodItem it) (hstack : GoodStack stack) : GoodStack s'.1 := by
  obtain ⟨nc, oc, pickedIndex, r, hrem, hpick, hext, hcase⟩ := stepItem_inversion h
  obtain ⟨hri, hlast, hupd⟩ := extract_components hext
  obtain ⟨hpop, hoc, hidx⟩ := (goodItem_iff it nc oc hrem).mp hit
  have hsib : r.isLast = false → GoodItem (siblingOf it nc oc r) := by
    intro hfalse
    rw [goodItem_iff (siblingOf it nc oc r) r.updatedChoices oc rfl]
    refine ⟨?_, hoc, ?_⟩
    · rw [hupd]
      exact popCount_clearAt_pos_of_isLastAt_false (hlast.symm.trans hfalse)
    · intro i' hi'
      rcases hitidx : it.index with _ | i
      · rw [show (siblingOf it nc oc r).index = none from by
          unfold siblingOf; rw [hitidx]] at hi'
        exact absurd hi' (by simp)
      · by_cases hcond : it.isRoot ∧ i < nc.length - 1
        · have hsibidx : (siblingOf it nc oc r).index = some (i + 1) := by
            unfold siblingOf
            rw [hitidx]
            dsimp only []
            rw [if_pos hcond]
          rw [hsibidx] at hi'
          cases Option.some.inj hi'
          have hroot_it : it.isRoot = true := hcond.1
          constructor
          · intro _ j hj1 hj2
            have hlen : r.updatedChoices.length = nc.length := by
              rw [hupd]
              exact clearAt_length nc pickedIndex
            have hilt : i < nc.length := by
              have := lt_length_of_getElem?_eq hri
              omega
            have hpicked_eq : pickedIndex = i := by
              apply pickNext_in_range_eq hilt
              rw [← hitidx]
              exact hpick
            have hjne : j ≠ pickedIndex := by omega
            rw [hupd, clearAt_getElem?_ne nc hjne]
            rw [hupd, clearAt_length] at hj2
            exact (hidx i hitidx).1 hroot_it j (by omega) hj2
          · intro hroot_false
            have hr : it.isRoot = false := hroot_false
            rw [hr] at hroot_it
            exact absurd hroot_it (by simp)
        · have hsibidx : (siblingOf it nc oc r).index = none := by
            unfold siblingOf
            rw [hitidx]
            dsimp only []
            rw [if_neg hcond]
          rw [hsibidx] at hi'
          exact absurd hi' (by simp)
  have hcont : ∀ d oc', oc = d :: oc' →
      GoodItem (contOf (addFct it.plan r.extracted) oc it.index) := by
    intro d oc' hoceq
    subst hoceq
    rw [goodItem_iff (contOf (addFct it.plan r.extracted) (d :: oc') it.index) d oc' rfl]
    have hd : GoodSet d := hoc d (List.mem_cons_self _ _)
    refine ⟨goodSet_popCount hd, fun d' hd' => hoc d' (List.mem_cons_of_mem _ hd'), ?_⟩
    intro i hi
    constructor
    · intro htrue
      simp [contOf] at htrue
    · intro _ x hx
      exact hd.2 x hx
  have hstack1 : GoodStack (if r.isLast then stack
      else insertInStack (siblingOf it nc oc r) stack) := by
    by_cases hl : r.isLast
    · rw [if_pos hl]
      exact hstack
    · rw [if_neg hl]
      intro it' hit'
      rcases mem_insertInStack.mp hit' with rfl | hmem
      · exact hsib (by simpa using hl)
      · exact hstack it' hmem
  rcases hcase with ⟨_, hstack', _, _⟩ | ⟨hocne, _, _, hcase2⟩
  · rw [hstack']
    exact hstack1
  · rcases hcase2 with ⟨m, _, _, hstack'⟩ | ⟨_, hstack'⟩
    · rw [hstack']
      exact hstack1
    · rw [hstack']
      intro it' hit'
      rcases mem_insertInStack.mp hit' with rfl | hmem
      · rcases oc with _ | ⟨d, oc'⟩
        · exact absurd rfl hocne
        · exact hcont d oc' rfl
      · exact hstack1 it' hmem

/-! ### The driver loop always returns a best result on well-formed stacks -/

theorem searchLoopF_total {P E : Type} (addFct : P → E → P) (costFct : P → Int) :
    ∀ (n : Nat) (stack : List (WorkItem P E)) (best : Option (P × Int)) (trace : Trace P),
      measureStack stack < n → GoodStack stack → (best = none → stack ≠ []) →
      ∃ b c t', searchLoopF addFct costFct n stack best trace = some (some (b, c), t') := by
  intro n
  induction n with
  | zero =>
    intro stack best trace h1 _ _
    exact absurd h1 (Nat.not_lt_zero _)
  | succ n ih =>
    intro stack best trace h1 hgood hne
    cases stack with
    | nil =>
      cases best with
      | none => exact absurd rfl (hne rfl)
      | some m => exact ⟨m.1, m.2, trace, rfl⟩
    | cons it rest =>
      obtain ⟨s', hstep⟩ := stepItem_succeeds addFct costFct rest best trace
        (hgood it (List.mem_cons_self _ _))
      obtain ⟨st', b', t'⟩ := s'
      have hm := stepItem_measure hstep
      dsimp only [] at hm
      have hgood' := stepItem_good hstep (hgood it (List.mem_cons_self _ _))
        (fun x hx => hgood x (List.mem_cons_of_mem _ hx))
      dsimp only [] at hgood'
      have hne' : b' = none → st' ≠ [] := by
        intro hb
        obtain ⟨nc, oc, pI, r, hrem, hpick, hext, hcase⟩ := stepItem_inversion hstep
        dsimp only [] at hcase
        rcases hcase with ⟨_, _, _, hmin⟩ | ⟨hocne, hb', _, hcase2⟩
        · rcases hmin with ⟨_, hb2⟩ | ⟨m, _, _, hb2⟩ | ⟨m, _, _, hb2⟩ <;>
            (rw [hb] at hb2; exact absurd hb2 (by simp))
        · rcases hcase2 with ⟨m, hbm, _, _⟩ | ⟨_, hst⟩
          · rw [hb] at hb'
            rw [← hb'] at hbm
            exact absurd hbm (by simp)
          · rw [hst]
            exact insertInStack_ne_nil _ _
      obtain ⟨b, c, t'', hres⟩ := ih st' b' t' (by omega) hgood' hne'
      refine ⟨b, c, t'', ?_⟩
      simp only [searchLoopF, hstep]
      exact hres

/-! ### Optimality of the branch-and-bound loop under monotone cost -/

theorem searchLoopF_optimal {P E : Type} {addFct : P → E → P} {costFct : P → Int}
    (hmono : ∀ p e, costFct p ≤ costFct (addFct p e)) (allPlans : List P) :
    ∀ (n : Nat) (stack : List (WorkItem P E)) (best : Option (P × Int)) (trace : Trace P),
      measureStack stack < n →
      GoodStack stack →
      (∀ pl ∈ stackLeaves addFct stack, pl ∈ allPlans) →
      (∀ b c, best = some (b, c) → c = costFct b ∧ b ∈ allPlans) →
      (∀ pl ∈ allPlans, pl ∈ stackLeaves addFct stack ∨
        ∃ b c, best = some (b, c) ∧ c ≤ costFct pl) →
      ∃ best' trace',
        searchLoopF addFct costFct n stack best trace = some (best', trace') ∧
        (∀ b c, best' = some (b, c) → c = costFct b ∧ b ∈ allPlans) ∧
        (∀ pl ∈ allPlans, ∃ b c, best' = some (b, c) ∧ c ≤ costFct pl) := by
  intro n
  induction n with
  | zero =>
    intro stack best trace h1 _ _ _ _
    exact absurd h1 (Nat.not_lt_zero _)
  | succ n ih =>
    intro stack best trace h1 hgood hsound hbsound hcover
    cases stack with
    | nil =>
      refine ⟨best, trace, rfl, hbsound, ?_⟩
      intro pl hpl
      rcases hcover pl hpl with hst | ⟨b, c, hb, hc⟩
      · exact absurd hst (by simp [stackLeaves])
      · exact ⟨b, c, hb, hc⟩
    | cons it rest =>
      obtain ⟨s', hstep⟩ := stepItem_succeeds addFct costFct rest best trace
        (hgood it (List.mem_cons_self _ _))
      obtain ⟨st', b', t'⟩ := s'
      have hm := stepItem_measure hstep
      dsimp only [] at hm
      have hgood' := stepItem_good hstep (hgood it (List.mem_cons_self _ _))
        (fun x hx => hgood x (List.mem_cons_of_mem _ hx))
      dsimp only [] at hgood'
      obtain ⟨nc, oc, pickedIndex, r, hrem, hpick, hext, hcase⟩ := stepItem_inversion hstep
      dsimp only [] at hcase
      obtain ⟨hri, hlast, hupd⟩ := extract_components hext
      have hitem_eq : itemLeaves addFct it = leavesOf addFct it.plan (nc :: oc) := by
        unfold itemLeaves
        rw [hrem]
      have hstack1_sub : ∀ pl ∈ stackLeaves addFct
          (if r.isLast then rest else insertInStack (siblingOf it nc oc r) rest),
          pl ∈ stackLeaves addFct (it :: rest) := by
        intro pl hpl
        by_cases hl : r.isLast = true
        · rw [if_pos hl] at hpl
          exact stackLeaves_cons.mpr (Or.inr hpl)
        · rw [if_neg hl] at hpl
          rcases stackLeaves_insertInStack.mp hpl with hpl | hpl
          · refine stackLeaves_cons.mpr (Or.inl ?_)
            rw [hitem_eq]
            have hplc : pl ∈ leavesOf addFct it.plan (clearAt nc pickedIndex :: oc) := by
              have h0 : itemLeaves addFct (siblingOf it nc oc r)
                  = leavesOf addFct it.plan (r.updatedChoices :: oc) := rfl
              rw [h0, hupd] at hpl
              exact hpl
            exact leavesOf_clearAt_subset hplc
          · exact stackLeaves_cons.mpr (Or.inr hpl)
      have hrest_sub : ∀ pl ∈ stackLeaves addFct rest, pl ∈ stackLeaves addFct
          (if r.isLast then rest else insertInStack (siblingOf it nc oc r) rest) := by
        intro pl hpl
        by_cases hl : r.isLast = true
        · rw [if_pos hl]
          exact hpl
        · rw [if_neg hl]
          exact stackLeaves_insertInStack.mpr (Or.inr hpl)
      have hclear_cover : ∀ pl ∈ leavesOf addFct it.plan (clearAt nc pickedIndex :: oc),
          pl ∈ stackLeaves addFct
            (if r.isLast then rest else insertInStack (siblingOf it nc oc r) rest) := by
        intro pl hpl
        by_cases hl : r.isLast = true
        · have hz : popCount (clearAt nc pickedIndex) = 0 :=
            (isLastAt_iff_popCount nc pickedIndex).mp (hlast.symm.trans hl)
          rw [leavesOf_zero_head addFct it.plan hz oc] at hpl
          simp at hpl
        · rw [if_neg hl]
          refine stackLeaves_insertInStack.mpr (Or.inl ?_)
          show pl ∈ leavesOf addFct it.plan (r.updatedChoices :: oc)
          rw [hupd]
          exact hpl
      have hsplit : ∀ pl ∈ itemLeaves addFct it,
          pl ∈ leavesOf addFct it.plan (clearAt nc pickedIndex :: oc) ∨
            pl ∈ leavesOf addFct (addFct it.plan r.extracted) oc := by
        intro pl hpl
        rw [hitem_eq] at hpl
        exact leavesOf_cons_split hri hpl
      have hsound1 : ∀ pl ∈ stackLeaves addFct
          (if r.isLast then rest else insertInStack (siblingOf it nc oc r) rest),
          pl ∈ allPlans := fun pl hpl => hsound pl (hstack1_sub pl hpl)
      rcases hcase with ⟨hocnil, hst', htr', hmin⟩ | ⟨hocne, hb', htr', hcase2⟩
      · -- the popped item completed a plan
        subst hocnil
        have hnp_all : addFct it.plan r.extracted ∈ allPlans := by
          apply hsound
          refine stackLeaves_cons.mpr (Or.inl ?_)
          rw [hitem_eq]
          refine leavesOf_cont_subset hri ?_
          rw [leavesOf_nil]
          exact List.mem_singleton.mpr rfl
        have hnew : (∀ b c, b' = some (b, c) → c = costFct b ∧ b ∈ allPlans) ∧
            (∃ b c, b' = some (b, c) ∧ c ≤ costFct (addFct it.plan r.extracted)) ∧
            (∀ m0, best = some m0 → ∃ b c, b' = some (b, c) ∧ c ≤ m0.2) := by
          rcases hmin with ⟨hbnone, hb2⟩ | ⟨m, hbm, hlt, hb2⟩ | ⟨m, hbm, hnlt, hb2⟩
          · refine ⟨?_, ⟨_, _, hb2, le_refl _⟩, ?_⟩
            · intro b c hbc
              rw [hb2] at hbc
              cases Option.some.inj hbc
              exact ⟨rfl, hnp_all⟩
            · intro m0 hm0
              rw [hbnone] at hm0
              exact absurd hm0 (by simp)
          · refine ⟨?_, ⟨_, _, hb2, le_refl _⟩, ?_⟩
            · intro b c hbc
              rw [hb2] at hbc
              cases Option.some.inj hbc
              exact ⟨rfl, hnp_all⟩
            · intro m0 hm0
              rw [hbm] at hm0
              cases Option.some.inj hm0
              exact ⟨_, _, hb2, le_of_lt hlt⟩
          · have hms := hbsound m.1 m.2 (by rw [hbm])
            refine ⟨?_, ⟨m.1, m.2, by rw [hb2], not_lt.mp hnlt⟩, ?_⟩
            · intro b c hbc
              rw [hb2] at hbc
              cases Option.some.inj hbc
              exact hms
            · intro m0 hm0
              rw [hbm] at hm0
              cases Option.some.inj hm0
              exact ⟨m.1, m.2, by rw [hb2], le_refl _⟩
        obtain ⟨hbsound', hnpb, hcarry⟩ := hnew
        have hcover' : ∀ pl ∈ allPlans, pl ∈ stackLeaves addFct st' ∨
            ∃ b c, b' = some (b, c) ∧ c ≤ costFct pl := by
          intro pl hpl
          rcases hcover pl hpl with hplst | ⟨b0, c0, hb0, hc0⟩
          · rcases stackLeaves_cons.mp hplst with hpl_it | hpl_rest
            · rcases hsplit pl hpl_it with hcl | hco
              · left
                rw [hst']
                exact hclear_cover pl hcl
              · right
                rw [leavesOf_nil] at hco
                rcases List.mem_singleton.mp hco with rfl
                exact hnpb
            · left
              rw [hst']
              exact hrest_sub pl hpl_rest
          · right
            obtain ⟨b, c, hb, hc⟩ := hcarry (b0, c0) hb0
            exact ⟨b, c, hb, le_trans hc hc0⟩
        have hsound' : ∀ pl ∈ stackLeaves addFct st', pl ∈ allPlans := by
          intro pl hpl
          rw [hst'] at hpl
          exact hsound1 pl hpl
        obtain ⟨best', trace', hres, hA, hB⟩ := ih st' b' t' (by omega) hgood'
          hsound' hbsound' (fun pl hpl => (hcover' pl hpl).imp id id)
        refine ⟨best', trace', ?_, hA, hB⟩
        simp only [searchLoopF, hstep]
        exact hres
      · -- more pieces remain
        have hb'sound : ∀ b c, b' = some (b, c) → c = costFct b ∧ b ∈ allPlans := by
          intro b c hbc
          rw [hb'] at hbc
          exact hbsound b c hbc
        rcases hcase2 with ⟨m, hbm, hprune, hst'⟩ | ⟨hpush, hst'⟩
        · -- pruned branch
          have hcover' : ∀ pl ∈ allPlans, pl ∈ stackLeaves addFct st' ∨
              ∃ b c, b' = some (b, c) ∧ c ≤ costFct pl := by
            intro pl hpl
            rcases hcover pl hpl with hplst | ⟨b0, c0, hb0, hc0⟩
            · rcases stackLeaves_cons.mp hplst with hpl_it | hpl_rest
              · rcases hsplit pl hpl_it with hcl | hco
                · left
                  rw [hst']
                  exact hclear_cover pl hcl
                · right
                  obtain ⟨q, hq, hfold⟩ := mem_leavesOf.mp hco
                  refine ⟨m.1, m.2, by rw [hb', hbm], ?_⟩
                  calc m.2 ≤ costFct (addFct it.plan r.extracted) := hprune
                    _ ≤ costFct (q.foldl addFct (addFct it.plan r.extracted)) :=
                        costFct_foldl_le hmono q _
                    _ = costFct pl := by rw [hfold]
              · left
                rw [hst']
                exact hrest_sub pl hpl_rest
            · right
              exact ⟨b0, c0, by rw [hb', hb0], hc0⟩
          have hsound' : ∀ pl ∈ stackLeaves addFct st', pl ∈ allPlans := by
            intro pl hpl
            rw [hst'] at hpl
            exact hsound1 pl hpl
          obtain ⟨best', trace', hres, hA, hB⟩ := ih st' b' t' (by omega) hgood'
            hsound' hb'sound hcover'
          refine ⟨best', trace', ?_, hA, hB⟩
          simp only [searchLoopF, hstep]
          exact hres
        · -- continuation pushed
          have hcont_eq : itemLeaves addFct
              (contOf (addFct it.plan r.extracted) oc it.index)
              = leavesOf addFct (addFct it.plan r.extracted) oc := rfl
          have hsound' : ∀ pl ∈ stackLeaves addFct st', pl ∈ allPlans := by
            intro pl hpl
            rw [hst'] at hpl
            rcases stackLeaves_insertInStack.mp hpl with hpl | hpl
            · rw [hcont_eq] at hpl
              apply hsound
              refine stackLeaves_cons.mpr (Or.inl ?_)
              rw [hitem_eq]
              exact leavesOf_cont_subset hri hpl
            · exact hsound1 pl hpl
          have hcover' : ∀ pl ∈ allPlans, pl ∈ stackLeaves addFct st' ∨
              ∃ b c, b' = some (b, c) ∧ c ≤ costFct pl := by
            intro pl hpl
            rcases hcover pl hpl with hplst | ⟨b0, c0, hb0, hc0⟩
            · rcases stackLeaves_cons.mp hplst with hpl_it | hpl_rest
              · rcases hsplit pl hpl_it with hcl | hco
                · left
                  rw [hst']
                  exact stackLeaves_insertInStack.mpr (Or.inr (hclear_cover pl hcl))
                · left
                  rw [hst']
                  refine stackLeaves_insertInStack.mpr (Or.inl ?_)
                  rw [hcont_eq]
                  exact hco
              · left
                rw [hst']
                exact stackLeaves_insertInStack.mpr (Or.inr (hrest_sub pl hpl_rest))
            · right
              exact ⟨b0, c0, by rw [hb', hb0], hc0⟩
          obtain ⟨best', trace', hres, hA, hB⟩ := ih st' b' t' (by omega) hgood'
            hsound' hb'sound hcover'
          refine ⟨best', trace', ?_, hA, hB⟩
          simp only [searchLoopF, hstep]
          exact hres

/-! ### The initial state is well formed -/

theorem pickNext_nil {E : Type} (index : Option Nat) :
    pickNext index ([] : Choices E) = none := by
  cases index with
  | none => rfl
  | some i => simp [pickNext, firstPopulated]

theorem popCount_map_some {E : Type} (s : List E) :
    popCount (s.map some) = s.length := by
  rw [← choiceElems_length, choiceElems_map_some]

theorem diagItem_good {P E : Type} (plan : P) (sets : List (List E)) (broot : Bool)
    (hne : sets ≠ []) (hsets : ∀ s ∈ sets, s ≠ []) :
    GoodItem (⟨plan, sets.map (fun s => s.map some), broot, some 0⟩ : WorkItem P E) := by
  rcases sets with _ | ⟨s0, rest0⟩
  · exact absurd rfl hne
  · rw [goodItem_iff _ (s0.map some) (rest0.map (fun s => s.map some)) rfl]
    refine ⟨?_, ?_, ?_⟩
    · rw [popCount_map_some]
      exact List.length_pos.mpr (hsets s0 (List.mem_cons_self _ _))
    · intro d hd
      obtain ⟨s, hs, rfl⟩ := List.mem_map.mp hd
      refine ⟨?_, ?_⟩
      · intro hcontra
        exact hsets s (List.mem_cons_of_mem _ hs) (by simpa using hcontra)
      · intro x hx
        obtain ⟨a, _, rfl⟩ := List.mem_map.mp hx
        simp
    · intro i hi
      cases Option.some.inj hi
      constructor
      · intro _ j _ hj
        have hjlen : j < s0.length := by simpa using hj
        obtain ⟨a, ha⟩ := exists_getElem?_eq_of_lt s0 j hjlen
        refine ⟨a, ?_⟩
        rw [List.getElem?_map, ha]
        rfl
      · intro _ x hx
        obtain ⟨a, _, rfl⟩ := List.mem_map.mp hx
        simp

theorem initItem_good {P E : Type} (initial : P) (toAdd : List (List E))
    (hne : toAdd ≠ []) (hsets : ∀ s ∈ toAdd, s ≠ []) :
    GoodItem (initItem initial toAdd) :=
  diagItem_good initial toAdd true hne hsets

theorem itemLeaves_initItem {P E : Type} (addFct : P → E → P) (initial : P)
    (toAdd : List (List E)) :
    itemLeaves addFct (initItem initial toAdd) = allPlansOf addFct initial toAdd := by
  show leavesOf addFct initial (toAdd.map (fun s => s.map some))
    = allPlansOf addFct initial toAdd
  unfold leavesOf allPlansOf
  rw [picksOf_map_some]

theorem stackLeaves_singleton {P E : Type} (addFct : P → E → P) (x : WorkItem P E)
    {pl : P} : pl ∈ stackLeaves addFct [x] ↔ pl ∈ itemLeaves addFct x := by
  simp [stackLeaves]

theorem allPicks_ne_nil {E : Type} {toAdd : List (List E)}
    (hsets : ∀ s ∈ toAdd, s ≠ []) : allPicks toAdd ≠ [] := by
  have h : picksOf (toAdd.map (fun s => s.map some)) ≠ [] := by
    refine picksOf_ne_nil ?_
    intro cs hcs
    obtain ⟨s, hs, rfl⟩ := List.mem_map.mp hcs
    rw [popCount_map_some]
    exact List.length_pos.mpr (hsets s hs)
  rwa [picksOf_map_some] at h

theorem allPlansOf_ne_nil {P E : Type} (addFct : P → E → P) (initial : P)
    {toAdd : List (List E)} (hsets : ∀ s ∈ toAdd, s ≠ []) :
    allPlansOf addFct initial toAdd ≠ [] := by
  unfold allPlansOf
  intro hc
  exact allPicks_ne_nil hsets (by simpa using hc)

/-! ### Claim theorems -/

/-- C1: for every initial plan, every non-empty choice list whose choice sets
each contain at least one candidate, and every combine/cost pair whose cost is
monotone non-decreasing under combination, `generateAllPlansAndFindBest`
returns a pair `(best, cost)` where `cost` is the minimum of `costFct` over the
plans obtained by folding `addFct` over each element of the full cartesian
product of the choice sets, and `best` attains that minimum. -/
theorem generateAllPlans_finds_min {P E : Type} (initial : P) (toAdd : List (List E))
    (addFct : P → E → P) (costFct : P → Int)
    (hne : toAdd ≠ []) (hsets : ∀ s ∈ toAdd, s ≠ [])
    (hmono : ∀ p e, costFct p ≤ costFct (addFct p e)) :
    ∃ best cost,
      generateAllPlansAndFindBest initial toAdd addFct costFct = some (best, cost) ∧
      best ∈ allPlansOf addFct initial toAdd ∧
      cost = costFct best ∧
      ∀ pl ∈ allPlansOf addFct initial toAdd, cost ≤ costFct pl := by
  have hgood : GoodStack [initItem initial toAdd] := by
    intro x hx
    cases List.mem_singleton.mp hx
    exact initItem_good initial toAdd hne hsets
  have hleaves : ∀ pl : P, pl ∈ stackLeaves addFct [initItem initial toAdd]
      ↔ pl ∈ allPlansOf addFct initial toAdd := by
    intro pl
    rw [stackLeaves_singleton, itemLeaves_initItem]
  obtain ⟨best', trace', hres, hA, hB⟩ :=
    searchLoopF_optimal hmono (allPlansOf addFct initial toAdd)
      (measureStack [initItem initial toAdd] + 1) [initItem initial toAdd] none []
      (Nat.lt_succ_self _) hgood (fun pl hpl => (hleaves pl).mp hpl)
      (fun b c h => absurd h (by simp))
      (fun pl hpl => Or.inl ((hleaves pl).mpr hpl))
  obtain ⟨pl0, hpl0⟩ := List.exists_mem_of_ne_nil _
    (allPlansOf_ne_nil addFct initial hsets)
  obtain ⟨b, c, hbc, _⟩ := hB pl0 hpl0
  obtain ⟨hc_eq, hb_mem⟩ := hA b c hbc
  rw [hbc] at hres
  refine ⟨b, c, ?_, hb_mem, hc_eq, ?_⟩
  · unfold generateAllPlansAndFindBest generateAllPlansWithTrace
    rw [hres]
    rfl
  · intro pl hpl
    obtain ⟨b2, c2, hbc2, hle2⟩ := hB pl hpl
    rw [hbc] at hbc2
    cases Option.some.inj hbc2
    exact hle2

/-- Witness for C1 at a concrete instance: plans are running sums of `Nat`
candidates, the cost is the sum itself (monotone since candidates are `Nat`),
and the returned pair is the minimum over the cartesian product. -/
theorem generateAllPlans_finds_min_witness :
    (([[1, 2], [3]] : List (List Nat)) ≠ [] ∧
      (∀ s ∈ ([[1, 2], [3]] : List (List Nat)), s ≠ []) ∧
      (∀ (p e : Nat), (fun q : Nat => (q : Int)) p
        ≤ (fun q : Nat => (q : Int)) ((fun a b : Nat => a + b) p e))) ∧
    (∃ best cost,
      generateAllPlansAndFindBest (0 : Nat) [[1, 2], [3]] (fun a b : Nat => a + b)
        (fun q : Nat => (q : Int)) = some (best, cost) ∧
      best ∈ allPlansOf (fun a b : Nat => a + b) (0 : Nat) [[1, 2], [3]] ∧
      cost = (fun q : Nat => (q : Int)) best ∧
      ∀ pl ∈ allPlansOf (fun a b : Nat => a + b) (0 : Nat) [[1, 2], [3]],
        cost ≤ (fun q : Nat => (q : Int)) pl) :=
  ⟨⟨by decide, by decide, fun p e => by exact Int.ofNat_le.mpr (Nat.le_add_right p e)⟩,
    generateAllPlans_finds_min 0 [[1, 2], [3]] (fun a b : Nat => a + b)
      (fun q : Nat => (q : Int)) (by decide) (by decide)
      (fun p e => by exact Int.ofNat_le.mpr (Nat.le_add_right p e))⟩

/-- C9 counterexample: on the empty choice list — which vacuously satisfies
"every choice set contains a candidate" — the run does not return a result:
the first iteration reads `remaining[0]` of an empty list and dies (a
`TypeError` at `remaining.length` inside `pickNext` in the source). -/
theorem loop_returns_counterexample :
    generateAllPlansAndFindBest (0 : Nat) ([] : List (List Nat))
      (fun a b : Nat => a + b) (fun q : Nat => (q : Int)) = none := by
  decide

/-- C9 (amended): for every initial plan and every non-empty finite choice list
whose choice sets each contain at least one candidate, the driver's loop
terminates — any fuel above the decreasing measure yields the same final
result — and `generateAllPlansAndFindBest` returns a result. -/
theorem loop_terminates_and_returns {P E : Type} (initial : P) (toAdd : List (List E))
    (addFct : P → E → P) (costFct : P → Int)
    (hne : toAdd ≠ []) (hsets : ∀ s ∈ toAdd, s ≠ []) :
    ∃ b c, generateAllPlansAndFindBest initial toAdd addFct costFct = some (b, c) ∧
      ∀ n, measureStack [initItem initial toAdd] < n →
        ∃ t, searchLoopF addFct costFct n [initItem initial toAdd] none []
          = some (some (b, c), t) := by
  have hgood : GoodStack [initItem initial toAdd] := by
    intro x hx
    cases List.mem_singleton.mp hx
    exact initItem_good initial toAdd hne hsets
  obtain ⟨b, c, t, hres⟩ := searchLoopF_total addFct costFct
    (measureStack [initItem initial toAdd] + 1) [initItem initial toAdd] none []
    (Nat.lt_succ_self _) hgood (fun _ => List.cons_ne_nil _ _)
  refine ⟨b, c, ?_, ?_⟩
  · unfold generateAllPlansAndFindBest generateAllPlansWithTrace
    rw [hres]
    rfl
  · intro n hn
    rw [searchLoopF_congr addFct costFct n (measureStack [initItem initial toAdd] + 1)
      [initItem initial toAdd] none [] hn (Nat.lt_succ_self _)]
    exact ⟨t, hres⟩

/-- Witness for the amended C9 at a concrete instance. -/
theorem loop_terminates_and_returns_witness :
    (([[2, 7]] : List (List Nat)) ≠ [] ∧
      (∀ s ∈ ([[2, 7]] : List (List Nat)), s ≠ [])) ∧
    (∃ b c, generateAllPlansAndFindBest (0 : Nat) [[2, 7]] (fun a b : Nat => a + b)
        (fun q : Nat => (q : Int)) = some (b, c) ∧
      ∀ n, measureStack [initItem (0 : Nat) ([[2, 7]] : List (List Nat))] < n →
        ∃ t, searchLoopF (fun a b : Nat => a + b) (fun q : Nat => (q : Int)) n
          [initItem (0 : Nat) [[2, 7]]] none [] = some (some (b, c), t)) :=
  ⟨⟨by decide, by decide⟩,
    loop_terminates_and_returns 0 [[2, 7]] (fun a b : Nat => a + b)
      (fun q : Nat => (q : Int)) (by decide) (by decide)⟩

/-! ### A choice list containing an empty choice set is a fatal error -/

theorem searchLoopF_empty_set {P E : Type} (addFct : P → E → P) (costFct : P → Int) :
    ∀ (n : Nat) (stack : List (WorkItem P E)) (trace : Trace P),
      (∀ it ∈ stack, ([] : Choices E) ∈ it.remaining) →
      searchLoopF addFct costFct n stack none trace = none ∨
        ∃ t', searchLoopF addFct costFct n stack none trace = some (none, t') := by
  intro n
  induction n with
  | zero =>
    intro stack trace _
    exact Or.inl rfl
  | succ n ih =>
    intro stack trace hinv
    cases stack with
    | nil => exact Or.inr ⟨trace, rfl⟩
    | cons it rest =>
      cases hstep : stepItem addFct costFct it rest none trace with
      | none =>
        left
        simp [searchLoopF, hstep]
      | some s' =>
        obtain ⟨st', b', t'⟩ := s'
        obtain ⟨nc, oc, pickedIndex, r, hrem, hpick, hext, hcase⟩ := stepItem_inversion hstep
        dsimp only [] at hcase
        have hmem : ([] : Choices E) ∈ nc :: oc := by
          rw [← hrem]
          exact hinv it (List.mem_cons_self _ _)
        have hoc : ([] : Choices E) ∈ oc := by
          rcases List.mem_cons.mp hmem with hnc | hoc
          · rw [← hnc, pickNext_nil] at hpick
            exact absurd hpick (by simp)
          · exact hoc
        rcases hcase with ⟨hocnil, _, _, _⟩ | ⟨_, hb', _, hcase2⟩
        · rw [hocnil] at hoc
          exact absurd hoc (List.not_mem_nil _)
        · rcases hcase2 with ⟨m, hm, _, _⟩ | ⟨_, hst'⟩
          · exact absurd hm (by simp)
          · have hinv' : ∀ x ∈ st', ([] : Choices E) ∈ x.remaining := by
              intro x hx
              rw [hst'] at hx
              rcases mem_insertInStack.mp hx with rfl | hx
              · exact hoc
              · have hx1 : x ∈ (if r.isLast then rest
                    else insertInStack (siblingOf it nc oc r) rest) := hx
                by_cases hl : r.isLast = true
                · rw [if_pos hl] at hx1
                  exact hinv x (List.mem_cons_of_mem _ hx1)
                · rw [if_neg hl] at hx1
                  rcases mem_insertInStack.mp hx1 with rfl | hx2
                  · exact List.mem_cons_of_mem _ hoc
                  · exact hinv x (List.mem_cons_of_mem _ hx2)
            rcases ih st' t' hinv' with hres | ⟨t2, hres⟩
            · left
              simp only [searchLoopF, hstep]
              rw [hb']
              exact hres
            · right
              refine ⟨t2, ?_⟩
              simp only [searchLoopF, hstep]
              rw [hb']
              exact hres

/-- C8: if the choice list contains a choice set with no candidate (an empty
array), the call dies on the documented assertion
(`Passed a "remaining" with all undefined`) and returns no result. -/
theorem empty_choice_set_fatal {P E : Type} (initial : P) (toAdd : List (List E))
    (addFct : P → E → P) (costFct : P → Int) (h : [] ∈ toAdd) :
    generateAllPlansAndFindBest initial toAdd addFct costFct = none := by
  have hmem : ∀ it ∈ [initItem initial toAdd], ([] : Choices E) ∈ it.remaining := by
    intro it hit
    cases List.mem_singleton.mp hit
    show ([] : Choices E) ∈ toAdd.map (fun s => s.map some)
    exact List.mem_map.mpr ⟨[], h, rfl⟩
  rcases searchLoopF_empty_set addFct costFct (measureStack [initItem initial toAdd] + 1)
      [initItem initial toAdd] [] hmem with hres | ⟨t', hres⟩
  · unfold generateAllPlansAndFindBest generateAllPlansWithTrace
    rw [hres]
    rfl
  · unfold generateAllPlansAndFindBest generateAllPlansWithTrace
    rw [hres]
    rfl

/-- Witness for C8: a concrete choice list holding an empty choice set. -/
theorem empty_choice_set_fatal_witness :
    (([] : List Nat) ∈ ([[], [3]] : List (List Nat))) ∧
    generateAllPlansAndFindBest (0 : Nat) [[], [3]] (fun a b : Nat => a + b)
      (fun q : Nat => (q : Int)) = none :=
  ⟨by decide, empty_choice_set_fatal 0 [[], [3]] (fun a b : Nat => a + b)
    (fun q : Nat => (q : Int)) (by decide)⟩

/-- C2 counterexample: on the spec's concrete three-piece scenario the search
returns the plan `{a1, b2, c1}` with total cost `2` — not `3` as the claim
states (the contributions are 1 + 1 + 0). -/
theorem concrete_scenario_counterexample :
    generateAllPlansAndFindBest ([] : List String) scenarioToAdd scenarioAdd scenarioCost
      = some (["a1", "b2", "c1"], 2) ∧ (2 : Int) ≠ 3 :=
  ⟨by decide, by decide⟩

/-- C2 (amended): the concrete scenario returns best plan `{a1, b2, c1}` with
total cost `2`. -/
theorem concrete_scenario_best_plan :
    generateAllPlansAndFindBest ([] : List String) scenarioToAdd scenarioAdd scenarioCost
      = some (["a1", "b2", "c1"], 2) := by
  decide

/-! ### The first completed plan is the index-0 diagonal -/

theorem searchLoopF_diag {P E : Type} (addFct : P → E → P) (costFct : P → Int) :
    ∀ (sets : List (List E)) (plan : P) (broot : Bool)
      (stackBelow : List (WorkItem P E)) (n : Nat),
      sets ≠ [] → (∀ s ∈ sets, s ≠ []) → GoodStack stackBelow →
      measureStack ((⟨plan, sets.map (fun s => s.map some), broot, some 0⟩ : WorkItem P E)
        :: stackBelow) < n →
      ∃ b c t',
        searchLoopF addFct costFct n
          ((⟨plan, sets.map (fun s => s.map some), broot, some 0⟩ : WorkItem P E)
            :: stackBelow) none []
          = some (some (b, c),
              (List.foldl addFct plan (sets.filterMap List.head?),
                costFct (List.foldl addFct plan (sets.filterMap List.head?)),
                none) :: t') := by
  intro sets
  induction sets with
  | nil =>
    intro plan broot stackBelow n hne _ _ _
    exact absurd rfl hne
  | cons s rest ih =>
    intro plan broot stackBelow n _ hsets hbelow hn
    have hsne : s ≠ [] := hsets s (List.mem_cons_self _ _)
    rcases hs : s with _ | ⟨e, s'⟩
    · exact absurd hs hsne
    subst hs
    have hgood_it : GoodItem (⟨plan, ((e :: s') :: rest).map (fun s => s.map some),
        broot, some 0⟩ : WorkItem P E) :=
      diagItem_good plan ((e :: s') :: rest) broot (by simp) hsets
    obtain ⟨s0, hstep⟩ := stepItem_succeeds addFct costFct stackBelow none [] hgood_it
    obtain ⟨st', b', t'⟩ := s0
    obtain ⟨nc, oc, pickedIndex, r, hrem, hpickI, hextI, hcase⟩ := stepItem_inversion hstep
    dsimp only [] at hcase
    have hrem' : (List.map some (e :: s')) :: rest.map (fun s => s.map some) = nc :: oc :=
      hrem
    injection hrem' with hnc hoc
    subst hnc
    subst hoc
    have hget0 : (List.map some (e :: s'))[0]? = some (some e) := by simp
    have hlen0 : 0 < (List.map some (e :: s')).length := by simp
    have hpick0 : pickNext (some 0) (List.map some (e :: s')) = some 0 :=
      pickNext_of_lt_populated hlen0 hget0
    have hpi : pickedIndex = 0 := by
      have h1 := hpick0.symm.trans hpickI
      exact (Option.some.inj h1).symm
    subst hpi
    have hext0 : extract 0 (List.map some (e :: s'))
        = some ⟨e, isLastAt (List.map some (e :: s')) 0,
            clearAt (List.map some (e :: s')) 0⟩ :=
      extract_eq hget0
    have hr : r = ⟨e, isLastAt (List.map some (e :: s')) 0,
        clearAt (List.map some (e :: s')) 0⟩ :=
      Option.some.inj (hextI.symm.trans hext0)
    subst hr
    have hgood' := stepItem_good hstep hgood_it hbelow
    dsimp only [] at hgood'
    have hmeas := stepItem_measure hstep
    dsimp only [] at hmeas
    cases n with
    | zero =>
      exfalso
      have hmc := measureStack_cons (⟨plan, ((e :: s') :: rest).map (fun s => s.map some),
        broot, some 0⟩ : WorkItem P E) stackBelow
      have h1 : 1 ≤ 3 ^ itemSlots (⟨plan, ((e :: s') :: rest).map (fun s => s.map some),
          broot, some 0⟩ : WorkItem P E) := Nat.one_le_pow _ _ (by norm_num)
      omega
    | succ n0 =>
      cases rest with
      | nil =>
        rcases hcase with ⟨_, hst', htr', hmin⟩ | ⟨hocne, _, _, _⟩
        · rcases hmin with ⟨_, hb2⟩ | ⟨m, hm, _, _⟩ | ⟨m, hm, _, _⟩
          · obtain ⟨b, c, t2, hres⟩ := searchLoopF_total addFct costFct n0 st' b' t'
              (by omega) hgood'
              (fun hb0 => absurd (hb0.symm.trans hb2) (by simp))
            obtain ⟨sfx, hsfx⟩ := searchLoopF_trace_extends addFct costFct n0 st' b' t'
              (some (b, c), t2) hres
            dsimp only [] at hsfx
            refine ⟨b, c, sfx, ?_⟩
            simp only [searchLoopF, hstep]
            rw [hres, hsfx, htr']
            rfl
          · exact absurd hm (by simp)
          · exact absurd hm (by simp)
        · exact absurd rfl hocne
      | cons d rest2 =>
        rcases hcase with ⟨hocnil, _, _, _⟩ | ⟨_, hb', htr', hcase2⟩
        · exact absurd hocnil (by simp)
        · rcases hcase2 with ⟨m, hm, _, _⟩ | ⟨_, hst'⟩
          · exact absurd hm (by simp)
          · obtain ⟨tail, htail⟩ : ∃ tail, st' = (⟨addFct plan e,
                (d :: rest2).map (fun s => s.map some), false, some 0⟩ : WorkItem P E)
                :: tail := ⟨_, by rw [hst']; rfl⟩
            rw [htail] at hgood' hmeas
            have hgood1 : GoodStack tail :=
              fun x hx => hgood' x (List.mem_cons_of_mem _ hx)
            have hmeas1 : measureStack ((⟨addFct plan e,
                (d :: rest2).map (fun s => s.map some), false, some 0⟩ : WorkItem P E)
                :: tail) < n0 := by
              omega
            obtain ⟨b, c, t2, hres⟩ := ih (addFct plan e) false tail n0 (by simp)
              (fun s2 hs2 => hsets s2 (List.mem_cons_of_mem _ hs2)) hgood1 hmeas1
            refine ⟨b, c, t2, ?_⟩
            simp only [searchLoopF, hstep]
            rw [htail, hb', htr']
            exact hres

/-- C10: for every input with at least one piece where every choice set offers
at least one candidate (the caller contract; `toAdd : E[][]` has every slot
populated), the first invocation of the `onPlan` observer is on the complete
plan obtained by folding `addFct` over the index-0 candidates of every choice
set in order, and its `previousCost` argument is absent. -/
theorem first_onPlan_is_diagonal {P E : Type} (initial : P) (toAdd : List (List E))
    (addFct : P → E → P) (costFct : P → Int)
    (hne : toAdd ≠ []) (hsets : ∀ s ∈ toAdd, s ≠ []) :
    ∃ res, generateAllPlansWithTrace initial toAdd addFct costFct = some res ∧
      res.2.head? = some (List.foldl addFct initial (toAdd.filterMap List.head?),
        costFct (List.foldl addFct initial (toAdd.filterMap List.head?)), none) := by
  obtain ⟨b, c, t', hres⟩ := searchLoopF_diag addFct costFct toAdd initial true []
    (measureStack [initItem initial toAdd] + 1) hne hsets
    (fun x hx => absurd hx (List.not_mem_nil x)) (Nat.lt_succ_self _)
  have hres' : searchLoopF addFct costFct (measureStack [initItem initial toAdd] + 1)
      [initItem initial toAdd] none []
      = some (some (b, c),
          (List.foldl addFct initial (toAdd.filterMap List.head?),
            costFct (List.foldl addFct initial (toAdd.filterMap List.head?)),
            none) :: t') := hres
  refine ⟨((b, c),
    (List.foldl addFct initial (toAdd.filterMap List.head?),
      costFct (List.foldl addFct initial (toAdd.filterMap List.head?)), none) :: t'),
    ?_, rfl⟩
  unfold generateAllPlansWithTrace
  rw [hres']

/-- Witness for C10 at a concrete instance: the first observer call sees the
plan `0 + 1 + 3 = 4` built from the index-0 candidates, with no previous
cost. -/
theorem first_onPlan_is_diagonal_witness :
    (([[1, 2], [3, 4]] : List (List Nat)) ≠ [] ∧
      (∀ s ∈ ([[1, 2], [3, 4]] : List (List Nat)), s ≠ [])) ∧
    (∃ res, generateAllPlansWithTrace (0 : Nat) [[1, 2], [3, 4]]
        (fun a b : Nat => a + b) (fun q : Nat => (q : Int)) = some res ∧
      res.2.head? = some (List.foldl (fun a b : Nat => a + b) 0
          (([[1, 2], [3, 4]] : List (List Nat)).filterMap List.head?),
        (fun q : Nat => (q : Int)) (List.foldl (fun a b : Nat => a + b) 0
          (([[1, 2], [3, 4]] : List (List Nat)).filterMap List.head?)), none)) :=
  ⟨⟨by decide, by decide⟩,
    first_onPlan_is_diagonal 0 [[1, 2], [3, 4]] (fun a b : Nat => a + b)
      (fun q : Nat => (q : Int)) (by decide) (by decide)⟩

/-! ### Piece-count bookkeeping (C3) -/

theorem stepItem_count {E : Type} {costFct : Nat → Int} {it : WorkItem Nat E}
    {stack : List (WorkItem Nat E)} {best : Option (Nat × Int)} {trace : Trace Nat}
    {s' : List (WorkItem Nat E) × Option (Nat × Int) × Trace Nat} {total : Nat}
    (h : stepItem (fun n (_ : E) => n + 1) costFct it stack best trace = some s')
    (hit : it.remaining.length + it.plan = total)
    (hstack : ∀ x ∈ stack, x.remaining.length + x.plan = total) :
    ∀ x ∈ s'.1, x.remaining.length + x.plan = total := by
  obtain ⟨nc, oc, pickedIndex, r, hrem, hpick, hext, hcase⟩ := stepItem_inversion h
  rw [hrem] at hit
  have hsib : ∀ x ∈ (if r.isLast then stack
      else insertInStack (siblingOf it nc oc r) stack),
      x.remaining.length + x.plan = total := by
    intro x hx
    by_cases hl : r.isLast = true
    · rw [if_pos hl] at hx
      exact hstack x hx
    · rw [if_neg hl] at hx
      rcases mem_insertInStack.mp hx with rfl | hx
      · show (r.updatedChoices :: oc).length + it.plan = total
        simp only [List.length_cons] at hit ⊢
        omega
      · exact hstack x hx
  rcases hcase with ⟨_, hst', _, _⟩ | ⟨_, _, _, hcase2⟩
  · rw [hst']
    exact hsib
  · rcases hcase2 with ⟨m, _, _, hst'⟩ | ⟨_, hst'⟩
    · rw [hst']
      exact hsib
    · rw [hst']
      intro x hx
      rcases mem_insertInStack.mp hx with rfl | hx
      · show oc.length + (it.plan + 1) = total
        simp only [List.length_cons] at hit
        omega
      · exact hsib x hx

theorem reach_count {E : Type} (costFct : Nat → Int) (toAdd : List (List E)) :
    ∀ s : SearchState Nat E,
      Relation.ReflTransGen (StepRel (fun n (_ : E) => n + 1) costFct)
        (initState (0 : Nat) toAdd) s →
      ∀ x ∈ s.1, x.remaining.length + x.plan = toAdd.length := by
  intro s h
  induction h with
  | refl =>
    intro x hx
    cases List.mem_singleton.mp hx
    show (toAdd.map (fun s => s.map some)).length + 0 = toAdd.length
    simp
  | tail _ hstep ihprev =>
    cases hstep with
    | step hst =>
      exact stepItem_count hst (ihprev _ (List.mem_cons_self _ _))
        (fun x hx => ihprev x (List.mem_cons_of_mem _ hx))

/-- C3 counterexample: already on the initial stack (a reachable state), the
total of populated slots over the item's choice sets (2) plus the pieces folded
into its plan (0, counted by the fold-counting instantiation) differs from the
total piece count (1). -/
theorem slots_invariant_counterexample :
    ∃ s : SearchState Nat Nat,
      Relation.ReflTransGen (StepRel (fun n (_ : Nat) => n + 1) (fun _ : Nat => (0 : Int)))
        (initState (0 : Nat) ([[5, 6]] : List (List Nat))) s ∧
      ∃ x ∈ s.1, ¬ (itemSlots x + x.plan = ([[5, 6]] : List (List Nat)).length) :=
  ⟨initState (0 : Nat) [[5, 6]], Relation.ReflTransGen.refl,
    initItem (0 : Nat) [[5, 6]], by decide, by decide⟩

/-- C3 (amended): in every run — with the opaque plan type instantiated to a
counter of `addFct` applications, so the plan value is the number of pieces
already folded — every work item ever present on the stack satisfies: number of
remaining choice sets plus pieces already folded equals the total piece
count. -/
theorem remaining_plus_folded_invariant {E : Type} (costFct : Nat → Int)
    (toAdd : List (List E)) (s : SearchState Nat E)
    (h : Relation.ReflTransGen (StepRel (fun n (_ : E) => n + 1) costFct)
      (initState (0 : Nat) toAdd) s) :
    ∀ x ∈ s.1, x.remaining.length + x.plan = toAdd.length :=
  reach_count costFct toAdd s h

/-- Witness for the amended C3 at the (reachable) initial state. -/
theorem remaining_plus_folded_invariant_witness :
    (Relation.ReflTransGen (StepRel (fun n (_ : Nat) => n + 1) (fun _ : Nat => (0 : Int)))
      (initState (0 : Nat) ([[5, 6]] : List (List Nat))) (initState (0 : Nat) [[5, 6]])) ∧
    (∀ x ∈ (initState (0 : Nat) ([[5, 6]] : List (List Nat))).1,
      x.remaining.length + x.plan = ([[5, 6]] : List (List Nat)).length) :=
  ⟨Relation.ReflTransGen.refl,
    remaining_plus_folded_invariant (fun _ : Nat => (0 : Int)) [[5, 6]] _
      Relation.ReflTransGen.refl⟩

/-! ### Best-result evolution (C4) -/

/-- C4: across one loop iteration the best-result (`min`) state either stays
exactly the same, or the iteration completed a plan (its item's choice list had
a single set left) whose cost is strictly below the previous best cost (or no
best existed yet), and the new best is that plan with its computed cost.
Moreover whenever a best exists it persists: afterwards some best exists with a
cost that has not increased.  In particular on an exact cost tie the previously
stored best is kept. -/
theorem best_result_evolution {P E : Type} {addFct : P → E → P} {costFct : P → Int}
    {it : WorkItem P E} {stack : List (WorkItem P E)} {best : Option (P × Int)}
    {trace : Trace P} {s' : List (WorkItem P E) × Option (P × Int) × Trace P}
    (h : stepItem addFct costFct it stack best trace = some s') :
    (s'.2.1 = best ∨
      (∃ nc i r, it.remaining = [nc] ∧ pickNext it.index nc = some i ∧
        extract i nc = some r ∧
        s'.2.1 = some (addFct it.plan r.extracted, costFct (addFct it.plan r.extracted)) ∧
        ∀ b pc, best = some (b, pc) → costFct (addFct it.plan r.extracted) < pc)) ∧
    (∀ b pc, best = some (b, pc) → ∃ b' pc', s'.2.1 = some (b', pc') ∧ pc' ≤ pc) := by
  obtain ⟨nc, oc, pickedIndex, r, hrem, hpick, hext, hcase⟩ := stepItem_inversion h
  rcases hcase with ⟨hocnil, _, _, hmin⟩ | ⟨_, hb', _, _⟩
  · subst hocnil
    rcases hmin with ⟨hbnone, hb2⟩ | ⟨m, hbm, hlt, hb2⟩ | ⟨m, hbm, hnlt, hb2⟩
    · constructor
      · right
        exact ⟨nc, pickedIndex, r, hrem, hpick, hext, hb2,
          fun b pc hbpc => absurd (hbnone.symm.trans hbpc) (by simp)⟩
      · intro b pc hbpc
        exact absurd (hbnone.symm.trans hbpc) (by simp)
    · constructor
      · right
        refine ⟨nc, pickedIndex, r, hrem, hpick, hext, hb2, ?_⟩
        intro b pc hbpc
        rw [hbm] at hbpc
        cases Option.some.inj hbpc
        exact hlt
      · intro b pc hbpc
        rw [hbm] at hbpc
        cases Option.some.inj hbpc
        exact ⟨_, _, hb2, le_of_lt hlt⟩
    · constructor
      · left
        rw [hb2, hbm]
      · intro b pc hbpc
        rw [hbm] at hbpc
        cases Option.some.inj hbpc
        exact ⟨b, pc, hb2, le_refl pc⟩
  · exact ⟨Or.inl hb',
      fun b pc hbpc => ⟨b, pc, by rw [hb', hbpc], le_refl pc⟩⟩

/-- Witness for C4: a concrete completing iteration that improves the best
result from cost 9 to cost 7. -/
theorem best_result_evolution_witness :
    (stepItem (fun a b : Nat => a + b) (fun q : Nat => (q : Int))
        (⟨2, [[some 5]], false, none⟩ : WorkItem Nat Nat) [] (some (9, 9)) []
      = some ([], some (7, 7), [(7, 7, some 9)])) ∧
    (((([], some (7, 7), [(7, 7, some 9)]) : List (WorkItem Nat Nat) × Option (Nat × Int)
          × Trace Nat).2.1 = some (9, 9) ∨
      (∃ nc i r, (⟨2, [[some 5]], false, none⟩ : WorkItem Nat Nat).remaining = [nc] ∧
        pickNext (⟨2, [[some 5]], false, none⟩ : WorkItem Nat Nat).index nc = some i ∧
        extract i nc = some r ∧
        (([], some (7, 7), [(7, 7, some 9)]) : List (WorkItem Nat Nat) × Option (Nat × Int)
            × Trace Nat).2.1
          = some ((fun a b : Nat => a + b)
                (⟨2, [[some 5]], false, none⟩ : WorkItem Nat Nat).plan r.extracted,
              (fun q : Nat => (q : Int)) ((fun a b : Nat => a + b)
                (⟨2, [[some 5]], false, none⟩ : WorkItem Nat Nat).plan r.extracted)) ∧
        ∀ b pc, (some (9, 9) : Option (Nat × Int)) = some (b, pc) →
          (fun q : Nat => (q : Int)) ((fun a b : Nat => a + b)
            (⟨2, [[some 5]], false, none⟩ : WorkItem Nat Nat).plan r.extracted) < pc)) ∧
      (∀ b pc, (some (9, 9) : Option (Nat × Int)) = some (b, pc) →
        ∃ b' pc', (([], some (7, 7), [(7, 7, some 9)]) : List (WorkItem Nat Nat)
          × Option (Nat × Int) × Trace Nat).2.1 = some (b', pc') ∧ pc' ≤ pc)) :=
  ⟨rfl, best_result_evolution (show stepItem (fun a b : Nat => a + b)
    (fun q : Nat => (q : Int)) (⟨2, [[some 5]], false, none⟩ : WorkItem Nat Nat) []
    (some (9, 9)) [] = some ([], some (7, 7), [(7, 7, some 9)]) from rfl)⟩

/-! ### Extractor and slot-selector contracts (C5, C6) -/

/-- C5: for a populated slot `i`, `extract` returns the stored candidate, an
updated choice set of the same length equal to the input everywhere except at
`i`, which is cleared, and an `isLast` flag that is true exactly when every
other slot was already empty; extracting an empty (or absent) slot is the
fatal internal error. -/
theorem extract_spec {E : Type} (i : Nat) (cs : Choices E) :
    (∀ e, cs[i]? = some (some e) →
      ∃ r, extract i cs = some r ∧ r.extracted = e ∧
        r.updatedChoices.length = cs.length ∧
        (∀ j, j ≠ i → r.updatedChoices[j]? = cs[j]?) ∧
        r.updatedChoices[i]? = some none ∧
        (r.isLast = true ↔ ∀ j, j < cs.length → j ≠ i → cs[j]? = some none)) ∧
    ((∀ e : E, cs[i]? ≠ some (some e)) → extract i cs = none) := by
  constructor
  · intro e he
    exact ⟨⟨e, isLastAt cs i, clearAt cs i⟩, extract_eq he, rfl, clearAt_length cs i,
      fun j hj => clearAt_getElem?_ne cs hj,
      clearAt_getElem?_self cs (lt_length_of_getElem?_eq he),
      isLastAt_true_iff_getElem? cs i⟩
  · exact extract_eq_none

/-- Witness for C5 on a concrete choice set. -/
theorem extract_spec_witness :
    (([some 3, none] : Choices Nat)[0]? = some (some 3)) ∧
    (∃ r, extract 0 ([some 3, none] : Choices Nat) = some r ∧ r.extracted = 3 ∧
      r.updatedChoices.length = ([some 3, none] : Choices Nat).length ∧
      (∀ j, j ≠ 0 → r.updatedChoices[j]? = ([some 3, none] : Choices Nat)[j]?) ∧
      r.updatedChoices[0]? = some none ∧
      (r.isLast = true ↔ ∀ j, j < ([some 3, none] : Choices Nat).length → j ≠ 0 →
        ([some 3, none] : Choices Nat)[j]? = some none)) :=
  ⟨by decide, (extract_spec 0 [some 3, none]).1 3 (by decide)⟩

theorem firstPopulated_eq_some {E : Type} {cs : Choices E} {j : Nat} {e : E}
    (hj : cs[j]? = some (some e)) (hk : ∀ k, k < j → cs[k]? = some none) :
    firstPopulated cs = some j := by
  induction cs generalizing j with
  | nil => simp at hj
  | cons x rest ih =>
    cases j with
    | zero =>
      simp only [List.getElem?_cons_zero] at hj
      cases Option.some.inj hj
      rfl
    | succ m =>
      have h0 : x = none := by
        have h1 := hk 0 (Nat.succ_pos m)
        simpa using h1
      subst h0
      simp only [List.getElem?_cons_succ] at hj
      show (firstPopulated rest).map (· + 1) = some (m + 1)
      rw [ih hj (fun k hkm => by
        have h2 := hk (k + 1) (Nat.succ_lt_succ hkm)
        simpa using h2)]
      rfl

/-- C6: with no preference, or a preference at or beyond the set's length,
`pickNext` scans forward from slot 0 and returns the first populated slot
(fatal internal error when no slot is populated); with an in-range preference
it returns it unchanged when populated and is a fatal internal error when that
slot is empty. -/
theorem pickNext_spec {E : Type} (index : Option Nat) (cs : Choices E) :
    ((index = none ∨ ∃ i, index = some i ∧ cs.length ≤ i) →
      ((∀ x ∈ cs, x = none) → pickNext index cs = none) ∧
      (∀ j e, cs[j]? = some (some e) → (∀ k, k < j → cs[k]? = some none) →
        pickNext index cs = some j)) ∧
    (∀ i, index = some i → i < cs.length →
      (∀ e, cs[i]? = some (some e) → pickNext index cs = some i) ∧
      (cs[i]? = some none → pickNext index cs = none)) := by
  constructor
  · intro hcase
    have hfp : pickNext index cs = firstPopulated cs := by
      rcases hcase with rfl | ⟨i, rfl, hge⟩
      · rfl
      · exact pickNext_of_ge cs hge
    constructor
    · intro hall
      rw [hfp]
      exact firstPopulated_eq_none_iff.mpr hall
    · intro j e hje hk
      rw [hfp]
      exact firstPopulated_eq_some hje hk
  · intro i hidx hlt
    subst hidx
    exact ⟨fun e he => pickNext_of_lt_populated hlt he,
      fun he => pickNext_of_lt_empty hlt he⟩

/-- Witness for C6: scanning with no preference returns the first populated
slot (index 1) of `[none, some 4]`. -/
theorem pickNext_spec_witness :
    ((none : Option Nat) = none ∨ ∃ i, (none : Option Nat) = some i ∧
      ([none, some 4] : Choices Nat).length ≤ i) ∧
    (([none, some 4] : Choices Nat)[1]? = some (some 4) ∧
      (∀ k, k < 1 → ([none, some 4] : Choices Nat)[k]? = some none) ∧
      pickNext (none : Option Nat) ([none, some 4] : Choices Nat) = some 1) :=
  ⟨Or.inl rfl, by decide, by decide,
    ((pickNext_spec none [none, some 4]).1 (Or.inl rfl)).2 1 4 (by decide) (by decide)⟩

/-! ### Stack-ordering policy (C7) -/

theorem indexedFirst_tail {P E : Type} {it : WorkItem P E} {rest : List (WorkItem P E)}
    (h : IndexedFirst (it :: rest)) : IndexedFirst rest := by
  obtain ⟨A, B, heq, hA, hB⟩ := h
  rcases A with _ | ⟨a, A'⟩
  · rw [List.nil_append] at heq
    cases B with
    | nil => exact absurd heq (by simp)
    | cons b B' =>
      injection heq with h1 h2
      exact ⟨[], B', by simpa using h2, by simp,
        fun x hx => hB x (List.mem_cons_of_mem _ hx)⟩
  · injection heq with h1 h2
    exact ⟨A', B, h2, fun x hx => hA x (List.mem_cons_of_mem _ hx), hB⟩

theorem indexedFirst_insert {P E : Type} {elt : WorkItem P E}
    {stack : List (WorkItem P E)} (h : IndexedFirst stack) :
    IndexedFirst (insertInStack elt stack) := by
  obtain ⟨A, B, heq, hA, hB⟩ := h
  unfold insertInStack
  cases hidx : elt.index with
  | some i =>
    refine ⟨elt :: A, B, by rw [heq]; rfl, ?_, hB⟩
    intro x hx
    rcases List.mem_cons.mp hx with rfl | hx
    · rw [hidx]
      simp
    · exact hA x hx
  | none =>
    refine ⟨A, B ++ [elt], by rw [heq, List.append_assoc], hA, ?_⟩
    intro x hx
    rcases List.mem_append.mp hx with hx | hx
    · exact hB x hx
    · cases List.mem_singleton.mp hx
      exact hidx

theorem stepItem_indexedFirst {P E : Type} {addFct : P → E → P} {costFct : P → Int}
    {it : WorkItem P E} {stack : List (WorkItem P E)} {best : Option (P × Int)}
    {trace : Trace P} {s' : List (WorkItem P E) × Option (P × Int) × Trace P}
    (h : stepItem addFct costFct it stack best trace = some s')
    (hp : IndexedFirst (it :: stack)) : IndexedFirst s'.1 := by
  obtain ⟨nc, oc, pickedIndex, r, hrem, hpick, hext, hcase⟩ := stepItem_inversion h
  have hrest : IndexedFirst stack := indexedFirst_tail hp
  have hstack1 : IndexedFirst (if r.isLast then stack
      else insertInStack (siblingOf it nc oc r) stack) := by
    by_cases hl : r.isLast = true
    · rw [if_pos hl]
      exact hrest
    · rw [if_neg hl]
      exact indexedFirst_insert hrest
  rcases hcase with ⟨_, hst', _, _⟩ | ⟨_, _, _, hcase2⟩
  · rw [hst']
    exact hstack1
  · rcases hcase2 with ⟨m, _, _, hst'⟩ | ⟨_, hst'⟩
    · rw [hst']
      exact hstack1
    · rw [hst']
      exact indexedFirst_insert hstack1

theorem reach_indexedFirst {P E : Type} (addFct : P → E → P) (costFct : P → Int)
    (initial : P) (toAdd : List (List E)) :
    ∀ s : SearchState P E,
      Relation.ReflTransGen (StepRel addFct costFct) (initState initial toAdd) s →
      IndexedFirst s.1 := by
  intro s h
  induction h with
  | refl =>
    refine ⟨[initItem initial toAdd], [], rfl, ?_, by simp⟩
    intro x hx
    cases List.mem_singleton.mp hx
    simp [initItem]
  | tail _ hstep ihprev =>
    cases hstep with
    | step hst => exact stepItem_indexedFirst hst ihprev

/-- C7: `insertInStack` places items with a defined preferred index at the
retrieval (pop) end of the stack and items without one at the opposite end;
consequently at every reachable point of a run, whenever the item about to be
popped (the stack head) carries no index, no item anywhere below it carries
one — indexed items are always popped before unindexed ones. -/
theorem insertInStack_ordering {P E : Type} :
    (∀ (elt : WorkItem P E) (stack : List (WorkItem P E)),
      ((∃ i, elt.index = some i) → insertInStack elt stack = elt :: stack) ∧
      (elt.index = none → insertInStack elt stack = stack ++ [elt])) ∧
    (∀ (addFct : P → E → P) (costFct : P → Int) (initial : P) (toAdd : List (List E))
      (s : SearchState P E),
      Relation.ReflTransGen (StepRel addFct costFct) (initState initial toAdd) s →
      ∀ it rest, s.1 = it :: rest → it.index = none →
        ∀ x ∈ rest, x.index = none) := by
  constructor
  · intro elt stack
    constructor
    · rintro ⟨i, hi⟩
      unfold insertInStack
      rw [hi]
    · intro hi
      unfold insertInStack
      rw [hi]
  · intro addFct costFct initial toAdd s hreach it rest hhead hidx x hx
    obtain ⟨A, B, heq, hA, hB⟩ := reach_indexedFirst addFct costFct initial toAdd s hreach
    rw [hhead] at heq
    cases A with
    | nil =>
      rw [List.nil_append] at heq
      exact hB x (by rw [← heq]; exact List.mem_cons_of_mem _ hx)
    | cons a A' =>
      injection heq with h1 h2
      exact absurd (h1 ▸ hidx) (hA a (List.mem_cons_self _ _))

/-- Witness for C7: concrete insertions at each end of the stack. -/
theorem insertInStack_ordering_witness :
    ((∃ i, (⟨0, [], true, some 0⟩ : WorkItem Nat Nat).index = some i) ∧
      insertInStack (⟨0, [], true, some 0⟩ : WorkItem Nat Nat)
        [⟨1, [], true, none⟩] = [⟨0, [], true, some 0⟩, ⟨1, [], true, none⟩]) ∧
    ((⟨0, [], true, none⟩ : WorkItem Nat Nat).index = none ∧
      insertInStack (⟨0, [], true, none⟩ : WorkItem Nat Nat)
        [⟨1, [], true, some 1⟩] = [⟨1, [], true, some 1⟩, ⟨0, [], true, none⟩]) :=
  ⟨⟨⟨0, rfl⟩, (insertInStack_ordering.1 _ _).1 ⟨0, rfl⟩⟩,
    ⟨rfl, (insertInStack_ordering.1 _ _).2 rfl⟩⟩

end GenerateAllPlans
